import Mathlib

/-!
Verification of the encoding engine of the llm-chat-msg-compressor repository
(src/dist/strategies.js, src/dist/optimizer.js, src/dist/index.js,
src/dist/analyzer.js) against its natural-language specification.

Modelling conventions, fixed once for the whole development:

* The JSON value model of spec section 3 is the inductive type `Value`.
  A JS object is an ordered association list of fields; JS objects always
  have pairwise-distinct keys, which is the well-formedness predicate `wfV`.
  Non-plain composites (Date, RegExp) are atomic leaves per the spec and are
  not represented; JS `undefined` does not occur in the JSON value model
  (absence of an object member is modelled by an `Option`-returning lookup).
* JS numbers are modelled as integers (`Int`): every number literal occurring
  in the spec, the claims and the repository tests is an integer, and
  `String(n)` / `JSON.stringify(n)` agree with `toString (n : Int)` there.
* `Buffer.byteLength(s, "utf8")` is the UTF-8 byte count `utf8Len`;
  the JS `String.prototype.length` (UTF-16 code units) is `jsLength`.
* Property membership (`k in o`, `Object.keys`) is own-key membership: the
  prototype chain carries no data in the JSON value model.
* The iterative (explicit stack) traversals of the source are modelled by
  structurally recursive functions computing the same result on trees, and
  by fuelled stack machines where the production order of the machine is
  observable (dictionary token assignment, dedup scan order).
-/

/-- The canonical JSON-like value model (spec section 3): Null, Boolean,
Number, String, ordered Array, ordered Object with string keys. -/
inductive Value where
  | vNull
  | vBool (b : Bool)
  | vNum (n : Int)
  | vStr (s : String)
  | vArr (xs : List Value)
  | vObj (fs : List (String × Value))

open Value

/-- JS string length: number of UTF-16 code units. -/
def jsLength (s : String) : Nat :=
  (s.data.map (fun c => if c.val < 0x10000 then 1 else 2)).sum

/-- `Buffer.byteLength(s, "utf8")`: UTF-8 byte count of a string. -/
def utf8Len (s : String) : Nat :=
  (s.data.map Char.utf8Size).sum

/-- Lower-case hexadecimal digit, as printed by `JSON.stringify` for
control-character escapes. -/
def hexDig (n : Nat) : Char :=
  if n < 10 then Char.ofNat (48 + n) else Char.ofNat (97 + (n - 10))

/-- The escaping `JSON.stringify` applies to one character of a string:
quote and backslash get a backslash, the named control escapes are used for
0x08..0x0D, any other control character becomes a 4-digit unicode escape,
everything else is emitted unchanged. -/
def jsonEscapeChar (c : Char) : List Char :=
  if c = '"' then ['\\', '"']
  else if c = '\\' then ['\\', '\\']
  else if c = '\x08' then ['\\', 'b']
  else if c = '\t' then ['\\', 't']
  else if c = '\n' then ['\\', 'n']
  else if c = '\x0c' then ['\\', 'f']
  else if c = '\r' then ['\\', 'r']
  else if c.val < 0x20 then ['\\', 'u', '0', '0', hexDig (c.val.toNat / 16), hexDig (c.val.toNat % 16)]
  else [c]

/-- `JSON.stringify` of a string: quoted, with `jsonEscapeChar` applied. -/
def jsonQuote (s : String) : String :=
  String.mk ('"' :: (s.data.flatMap jsonEscapeChar) ++ ['"'])

/-- A string none of whose characters is rewritten by JSON escaping. -/
def escapeFree (s : String) : Bool :=
  s.data.all (fun c => jsonEscapeChar c == [c])

/-- A string whose UTF-16 length and UTF-8 byte length agree, i.e. an
all-ASCII string. -/
def asciiStr (s : String) : Bool :=
  s.data.all (fun c => c.val < 0x80)

mutual
/-- `JSON.stringify` on the value model (insertion-ordered object members,
no spacing), as used throughout the repository for byte measurements and
canonicalization. -/
def jsonStringify : Value → String
  | vNull => "null"
  | vBool b => if b then "true" else "false"
  | vNum n => toString n
  | vStr s => jsonQuote s
  | vArr xs => "[" ++ jsonStringifyL xs ++ "]"
  | vObj fs => "\x7b" ++ jsonStringifyF fs ++ "\x7d"
/-- Comma-separated serialization of array elements. -/
def jsonStringifyL : List Value → String
  | [] => ""
  | [v] => jsonStringify v
  | v :: v2 :: vs => jsonStringify v ++ "," ++ jsonStringifyL (v2 :: vs)
/-- Comma-separated serialization of object members. -/
def jsonStringifyF : List (String × Value) → String
  | [] => ""
  | [(k, v)] => jsonQuote k ++ ":" ++ jsonStringify v
  | (k, v) :: p2 :: fs => jsonQuote k ++ ":" ++ jsonStringify v ++ "," ++ jsonStringifyF (p2 :: fs)
end

/-- `Buffer.byteLength(JSON.stringify(v), "utf8")`. -/
def jsonBytes (v : Value) : Nat := utf8Len (jsonStringify v)

/-- JS truthiness on the value model (NaN does not arise: numbers are
integers). -/
def truthy : Value → Bool
  | vNull => false
  | vBool b => b
  | vNum n => decide (n ≠ 0)
  | vStr s => decide (s ≠ "")
  | vArr _ => true
  | vObj _ => true

/-- Own-property lookup on an object's member list (JS objects have unique
keys, so the first match is the member). -/
def jsGet (fs : List (String × Value)) (k : String) : Option Value :=
  (fs.find? (fun p => p.1 == k)).map (fun p => p.2)

/-- Property access `v[k]` for a string key: `none` models JS `undefined`
(primitives and arrays have no own string-keyed data properties in the value
model). -/
def mField (v : Value) (k : String) : Option Value :=
  match v with
  | vObj fs => jsGet fs k
  | _ => none

/-- JS property assignment `o[k] = v` on a member list: overwrite in place
if the key exists (keeping its position), else append. -/
def jsSet (fs : List (String × Value)) (k : String) (v : Value) : List (String × Value) :=
  if fs.any (fun p => p.1 == k) then fs.map (fun p => if p.1 == k then (p.1, v) else p)
  else fs ++ [(k, v)]

/-- Build an object by JS-assigning the given key/value pairs in order into
a fresh empty object. -/
def buildObj (ps : List (String × Value)) : List (String × Value) :=
  ps.foldl (fun acc p => jsSet acc p.1 p.2) []

mutual
/-- Structural size of a value, used as a measure for the stack machines. -/
def vsize : Value → Nat
  | vNull => 1
  | vBool _ => 1
  | vNum _ => 1
  | vStr _ => 1
  | vArr xs => 1 + vsizeL xs
  | vObj fs => 1 + vsizeF fs
/-- Total size of a list of values. -/
def vsizeL : List Value → Nat
  | [] => 0
  | v :: vs => vsize v + vsizeL vs
/-- Total size of a member list. -/
def vsizeF : List (String × Value) → Nat
  | [] => 0
  | (_, v) :: fs => 1 + vsize v + vsizeF fs
end

mutual
/-- Well-formedness: every object in the tree has pairwise-distinct keys,
as every JS object does. -/
def wfV : Value → Bool
  | vNull => true
  | vBool _ => true
  | vNum _ => true
  | vStr _ => true
  | vArr xs => wfL xs
  | vObj fs => decide ((fs.map Prod.fst).Nodup) && wfF fs
/-- Well-formedness of all elements of a list. -/
def wfL : List Value → Bool
  | [] => true
  | v :: vs => wfV v && wfL vs
/-- Well-formedness of all member values. -/
def wfF : List (String × Value) → Bool
  | [] => true
  | (_, v) :: fs => wfV v && wfF fs
end

mutual
/-- Boolean structural equality on values. -/
def beqV : Value → Value → Bool
  | vNull, vNull => true
  | vBool a, vBool b => a == b
  | vNum a, vNum b => a == b
  | vStr a, vStr b => a == b
  | vArr xs, vArr ys => beqL xs ys
  | vObj fs, vObj gs => beqF fs gs
  | _, _ => false
/-- Boolean equality on value lists. -/
def beqL : List Value → List Value → Bool
  | [], [] => true
  | x :: xs, y :: ys => beqV x y && beqL xs ys
  | _, _ => false
/-- Boolean equality on member lists. -/
def beqF : List (String × Value) → List (String × Value) → Bool
  | [], [] => true
  | (k, v) :: fs, (l, w) :: gs => k == l && beqV v w && beqF fs gs
  | _, _ => false
end

mutual
theorem beqV_refl : ∀ a, beqV a a = true
  | vNull => rfl
  | vBool b => by simp [beqV]
  | vNum n => by simp [beqV]
  | vStr s => by simp [beqV]
  | vArr xs => by rw [beqV]; exact beqL_refl xs
  | vObj fs => by rw [beqV]; exact beqF_refl fs
theorem beqL_refl : ∀ xs, beqL xs xs = true
  | [] => rfl
  | x :: xs => by rw [beqL, beqV_refl, beqL_refl]; rfl
theorem beqF_refl : ∀ fs, beqF fs fs = true
  | [] => rfl
  | (k, v) :: fs => by rw [beqF, beqV_refl, beqF_refl]; simp
end

mutual
theorem beqV_sound : ∀ a b, beqV a b = true → a = b
  | vNull, b => by cases b <;> simp [beqV]
  | vBool x, b => by cases b <;> simp [beqV]
  | vNum x, b => by cases b <;> simp [beqV]
  | vStr x, b => by cases b <;> simp [beqV]
  | vArr xs, b => by
      cases b <;> simp [beqV]
      exact fun h => beqL_sound xs _ h
  | vObj fs, b => by
      cases b <;> simp [beqV]
      exact fun h => beqF_sound fs _ h
theorem beqL_sound : ∀ xs ys, beqL xs ys = true → xs = ys
  | [], ys => by cases ys <;> simp [beqL]
  | x :: xs, ys => by
      cases ys with
      | nil => simp [beqL]
      | cons y ys =>
        intro h
        rw [beqL, Bool.and_eq_true] at h
        rw [beqV_sound x y h.1, beqL_sound xs ys h.2]
theorem beqF_sound : ∀ fs gs, beqF fs gs = true → fs = gs
  | [], gs => by cases gs <;> simp [beqF]
  | (k, v) :: fs, gs => by
      cases gs with
      | nil => simp [beqF]
      | cons p gs =>
        obtain ⟨l, w⟩ := p
        intro h
        rw [beqF, Bool.and_eq_true, Bool.and_eq_true] at h
        obtain ⟨⟨h1, h2⟩, h3⟩ := h
        rw [beqV_sound v w h2, beqF_sound fs gs h3, eq_of_beq h1]
end

instance : DecidableEq Value := fun a b =>
  if h : beqV a b = true then isTrue (beqV_sound a b h)
  else isFalse (fun he => h (he ▸ beqV_refl a))

/-- One step of `generateShortKey`'s do-while loop, with explicit fuel
(the loop variable strictly decreases, so fuel equal to the start value
suffices; see `genCharsGo_eq`).  `temp < 26` is exactly the loop exit test
`Math.floor(temp / 26) - 1 < 0`. -/
def genCharsGo : Nat → Nat → List Char
  | 0, temp => [Char.ofNat (97 + temp % 26)]
  | fuel + 1, temp =>
    if temp < 26 then [Char.ofNat (97 + temp % 26)]
    else genCharsGo fuel (temp / 26 - 1) ++ [Char.ofNat (97 + temp % 26)]

/-- `generateShortKey` (src/dist/strategies.js lines 7-15): the base-26
counter scheme a, b, ..., z, aa, ab, ... -/
def generateShortKey (index : Nat) : String :=
  String.mk (genCharsGo index index)

/-- Composite (traversed-into) values: arrays and plain objects. -/
def isComposite : Value → Bool
  | vArr _ => true
  | vObj _ => true
  | _ => false

/-- The children a traversal pushes for one node, in source iteration
order (array elements by ascending index, object members in key order). -/
def childVals : Value → List Value
  | vArr xs => xs
  | vObj fs => fs.map Prod.snd
  | _ => []

/-- Total structural size of a work stack, the termination measure of the
iterative traversals. -/
def stackMeasure (st : List Value) : Nat := vsizeL st

/-- The sequence of object keys in the order the strategies' stack-machine
transforms encounter them (src/dist/strategies.js lines 95-152, 726-790):
the machine pops the newest frame first, so a processed node's children are
visited last-pushed-first, i.e. the reversed child list goes on top of the
stack.  Fuelled: each step removes a node from the stack and adds only its
children, so `stackMeasure` steps suffice. -/
def keySeqGo : Nat → List Value → List String
  | 0, _ => []
  | _ + 1, [] => []
  | fuel + 1, v :: rest =>
    match v with
    | vObj fs => fs.map Prod.fst ++ keySeqGo fuel ((fs.map Prod.snd).reverse ++ rest)
    | vArr xs => keySeqGo fuel (xs.reverse ++ rest)
    | _ => keySeqGo fuel rest

/-- Keys of a value in stack-machine encounter order. -/
def keySeq (v : Value) : List String := keySeqGo (vsize v) [v]

/-- The composite subtrees of the stack in dedup first-pass scan order
(src/dist/strategies.js lines 550-574): pop a node, canonicalize and count
it if composite, push its children. -/
def compositeSeqGo : Nat → List Value → List Value
  | 0, _ => []
  | _ + 1, [] => []
  | fuel + 1, v :: rest =>
    if isComposite v then v :: compositeSeqGo fuel ((childVals v).reverse ++ rest)
    else compositeSeqGo fuel rest

/-- Composite subtrees of a value, with multiplicity, in scan order. -/
def compositeSeq (v : Value) : List Value := compositeSeqGo (vsize v) [v]

/-- The scan of a whole work stack with sufficient fuel (the reasoning form
of `compositeSeqGo`). -/
def compositeSeqS (st : List Value) : List Value := compositeSeqGo (stackMeasure st) st

/-- Keep the first occurrence of every string, preserving order — the
insertion order of a JS `Map` keyed by the strings. -/
def firstDedupAux : List String → List String → List String
  | [], acc => acc
  | k :: ks, acc => if acc.contains k then firstDedupAux ks acc else firstDedupAux ks (acc ++ [k])

/-- First-occurrence deduplication. -/
def firstDedup (l : List String) : List String := firstDedupAux l []

/-- `AbbreviatedKeysStrategy.DICT` (src/dist/strategies.js lines 227-256):
the default static dictionary of common LLM payload keys. -/
def DICT : List (String × String) :=
  [("role", "a"), ("content", "b"), ("message", "c"), ("messages", "d"),
   ("user", "e"), ("assistant", "f"), ("system", "g"), ("name", "h"),
   ("id", "i"), ("timestamp", "j"), ("source", "k"), ("meta", "l"),
   ("text", "m"), ("input", "n"), ("output", "o"), ("reply", "p"),
   ("context", "q"), ("description", "r"), ("type", "s"), ("error", "t"),
   ("status", "u"), ("result", "v"), ("value", "w"), ("items", "x"),
   ("data", "y"), ("payload", "z"), ("options", "aa"), ("params", "ab")]

/-- Own-key lookup in a static dictionary (`key in dict` / `dict[key]`;
prototype-chain properties carry no data in the value model). -/
def dictGet (dict : List (String × String)) (k : String) : Option String :=
  (dict.find? (fun p => p.1 == k)).map Prod.snd

/-- Lookup in an association list of strings (a JS `Map` with distinct keys). -/
def lookupStr (m : List (String × String)) (k : String) : Option String :=
  (m.find? (fun p => p.1 == k)).map Prod.snd

/-- Key frequency over one value, as collected by the abbreviation
strategy's first (frequency-counting) pass (src/dist/strategies.js lines
48-69); on trees the visited-set skip never fires, so every occurrence is
counted. -/
def keyFreq (v : Value) (k : String) : Nat := (keySeq v).count k

/-- `shouldAbbreviate` (src/dist/strategies.js lines 81-87): a key is
abbreviated if it is in the static dictionary, longer than 4 UTF-16 units,
or occurs more than twice. -/
def shouldAbbreviate (dict : List (String × String)) (v : Value) (k : String) : Bool :=
  (dictGet dict k).isSome || decide (jsLength k > 4) || decide (keyFreq v k > 2)

/-- The distinct keys that receive a dynamic token during one abbreviation
encode, in first-assignment order: keys outside the static dictionary that
pass `shouldAbbreviate`, in stack-machine encounter order. -/
def abbrevDynSeq (dict : List (String × String)) (v : Value) : List String :=
  firstDedup ((keySeq v).filter (fun k => (dictGet dict k).isNone && shouldAbbreviate dict v k))

/-- Pair every key with its base-26 counter token, in order. -/
def enumTokens (ks : List String) : List (String × String) :=
  ks.enum.map (fun p => (p.2, generateShortKey p.1))

/-- The dynamic key map `m` of one `AbbreviatedKeysStrategy.compress` call. -/
def abbrevMapOf (dict : List (String × String)) (v : Value) : List (String × String) :=
  enumTokens (abbrevDynSeq dict v)

/-- The key actually written for original key `k` by the abbreviation
transform: static token if `k` is in the dictionary, else its dynamic short
token if `shouldAbbreviate`, else `k` unchanged. -/
def abbrevTarget (dict : List (String × String)) (m : List (String × String))
    (v : Value) (k : String) : String :=
  match dictGet dict k with
  | some t => t
  | none => if shouldAbbreviate dict v k then (lookupStr m k).getD k else k

mutual
/-- Rebuild a tree replacing every object key `k` by `f k`; objects are
reassembled with JS assignment semantics (`jsSet`), so colliding targets
overwrite.  This is the pure result of the iterative transforms of the
abbreviation strategies and of their decompressors. -/
def keyRewrite (f : String → String) : Value → Value
  | vNull => vNull
  | vBool b => vBool b
  | vNum n => vNum n
  | vStr s => vStr s
  | vArr xs => vArr (keyRewriteL f xs)
  | vObj fs => vObj (buildObj (keyRewriteF f fs))
/-- `keyRewrite` over array elements. -/
def keyRewriteL (f : String → String) : List Value → List Value
  | [] => []
  | v :: vs => keyRewrite f v :: keyRewriteL f vs
/-- `keyRewrite` over object members. -/
def keyRewriteF (f : String → String) : List (String × Value) → List (String × Value)
  | [] => []
  | (k, v) :: fs => (f k, keyRewrite f v) :: keyRewriteF f fs
end

/-- `AbbreviatedKeysStrategy.compress` (src/dist/strategies.js lines
47-160): envelope with the dynamic map `m` and the key-rewritten body `d`. -/
def abbrevCompress (dict : List (String × String)) (v : Value) : Value :=
  vObj [("m", vObj ((abbrevMapOf dict v).map (fun p => (p.1, vStr p.2)))),
        ("d", keyRewrite (abbrevTarget dict (abbrevMapOf dict v) v) v)]

/-- The string-valued entries of an envelope's `m` member (a JS `Map` keyed
by strings can only hit entries whose stored value is a string). -/
def mEntriesStr (mv : Value) : List (String × String) :=
  match mv with
  | vObj fs => fs.filterMap (fun p => match p.2 with | vStr s => some (p.1, s) | _ => none)
  | _ => []

/-- `staticReverse[t]`: invert the static dictionary, later entries
overwriting earlier ones on duplicate tokens. -/
def staticReverse (dict : List (String × String)) (t : String) : Option String :=
  (dict.reverse.find? (fun p => p.2 == t)).map Prod.fst

/-- The decoder's key recovery (src/dist/strategies.js lines 203-208 and
871-877): `orig = reverseMap.get(k) || k`, then the static-dictionary
fallback when the dynamic map did not change the key.  `rm` holds the
(original, token) pairs of `m` in insertion order; the `Map` built from it
keeps the last write per token. -/
def decodeKey (dict : List (String × String)) (rm : List (String × String)) (k : String) : String :=
  let o := match ((rm.map (fun p => (p.2, p.1))).reverse.find? (fun p => p.1 == k)).map Prod.snd with
    | some s => if s == "" then k else s
    | none => k
  if o == k then
    match staticReverse dict k with
    | some s2 => if s2 == "" then o else s2
    | none => o
  else o

/-- The shared `{m, d}` decompressor (the bodies of
`AbbreviatedKeysStrategy.decompress`, lines 161-224, and
`UltraCompactStrategy.decompress`, lines 830-894, are identical):
if the package, its `m` and the presence of `d` check out, rewrite every
key of `d` through `decodeKey`, else return the package unchanged. -/
def dictDecompress (dict : List (String × String)) (pkg : Value) : Value :=
  if truthy pkg && (match mField pkg ("m") with | some m => truthy m | none => false)
     && (mField pkg ("d")).isSome then
    keyRewrite (decodeKey dict (mEntriesStr ((mField pkg ("m")).getD vNull)))
      ((mField pkg ("d")).getD vNull)
  else pkg

/-- The key map of one `UltraCompactStrategy.compress` call: every key gets
a dynamic token, in encounter order (src/dist/strategies.js lines 702-711). -/
def ultraMapOf (v : Value) : List (String × String) :=
  enumTokens (firstDedup (keySeq v))

/-- The key written by the ultra transform for original key `k`. -/
def ultraTarget (m : List (String × String)) (k : String) : String :=
  (lookupStr m k).getD k

mutual
/-- Rewrite booleans to 1/0, the unsafe-mode value conversion of
`UltraCompactStrategy` (traversal-time and post-pass; on trees the
traversal already converts every boolean, and the post-pass sweep is the
identity on its output). -/
def boolsToNums : Value → Value
  | vNull => vNull
  | vBool b => vNum (if b then 1 else 0)
  | vNum n => vNum n
  | vStr s => vStr s
  | vArr xs => vArr (boolsToNumsL xs)
  | vObj fs => vObj (boolsToNumsF fs)
/-- `boolsToNums` over array elements. -/
def boolsToNumsL : List Value → List Value
  | [] => []
  | v :: vs => boolsToNums v :: boolsToNumsL vs
/-- `boolsToNums` over object members. -/
def boolsToNumsF : List (String × Value) → List (String × Value)
  | [] => []
  | (k, v) :: fs => (k, boolsToNums v) :: boolsToNumsF fs
end

/-- `UltraCompactStrategy.compress` (src/dist/strategies.js lines 701-829):
every key is mapped to a dynamic token; in unsafe mode booleans are
additionally rewritten to 1/0 (transform plus idempotent post-pass). -/
def ultraCompress (uns : Bool) (v : Value) : Value :=
  vObj [("m", vObj ((ultraMapOf v).map (fun p => (p.1, vStr p.2)))),
        ("d", (fun d => if uns then boolsToNums d else d) (keyRewrite (ultraTarget (ultraMapOf v)) v))]

/-- Head-element key list of an array (`Object.keys(src[0])`). -/
def headKeys (xs : List Value) : List String :=
  match xs with
  | vObj fs :: _ => fs.map Prod.fst
  | _ => []

/-- The uniform-array detection of `SchemaDataSeparationStrategy.compress`
(src/dist/strategies.js lines 279-310): a nonempty array whose first
element is a non-null non-array object and whose every further element is a
non-null non-array object with the same number of own keys, all of the
first element's keys being present (`key in item`, own-key membership in
the value model).  Checked over every element, not a sample. -/
def allMatch (xs : List Value) : Bool :=
  match xs with
  | vObj fs0 :: rest =>
    let ks := fs0.map Prod.fst
    rest.all (fun it =>
      match it with
      | vObj fsi => (fsi.length == ks.length) && ks.all (fun k => (fsi.map Prod.fst).contains k)
      | _ => false)
  | _ => false

/-- `el[k]` for a uniform-array element (always an object with `k` present
there; the `vNull` default never fires on the uniform branch). -/
def elGet (el : Value) (k : String) : Value :=
  match el with
  | vObj fs => (jsGet fs k).getD vNull
  | _ => vNull

/-- The per-row value vectors of a schema record, projected from the
already-compressed elements (compression preserves object keys, so
projecting after compressing each element value equals the source's
per-slot jobs `src[i][keys[j]]`). -/
def schemaRows (ks : List String) (els : List Value) : List Value :=
  els.map (fun el => vArr (ks.map (fun k => elGet el k)))

mutual
/-- `SchemaDataSeparationStrategy.compress` (src/dist/strategies.js lines
265-393): uniform arrays of same-keyed objects become a
`\x7b$s: fields, $d: rows\x7d` record (fields in the first element's key
order), everything else is copied structurally. -/
def schemaCompress : Value → Value
  | vNull => vNull
  | vBool b => vBool b
  | vNum n => vNum n
  | vStr s => vStr s
  | vArr xs =>
    if allMatch xs then
      vObj [("$s", vArr ((headKeys xs).map vStr)),
            ("$d", vArr (schemaRows (headKeys xs) (schemaCompressL xs)))]
    else vArr (schemaCompressL xs)
  | vObj fs => vObj (buildObj (schemaCompressF fs))
/-- `schemaCompress` over array elements. -/
def schemaCompressL : List Value → List Value
  | [] => []
  | v :: vs => schemaCompress v :: schemaCompressL vs
/-- `schemaCompress` over object members. -/
def schemaCompressF : List (String × Value) → List (String × Value)
  | [] => []
  | (k, v) :: fs => (k, schemaCompress v) :: schemaCompressF fs
end

/-- Is this value an array. -/
def isArr : Value → Bool
  | vArr _ => true
  | _ => false

/-- The decoder's schema-record test (src/dist/strategies.js lines
409-414): `src.$s && src.$d && Array.isArray(src.$s) &&
Array.isArray(src.$d)` — both members present, truthy and arrays. -/
def schemaMarkerCheck (fs : List (String × Value)) : Bool :=
  (match jsGet fs ("$s") with | some s => truthy s && isArr s | none => false) &&
  (match jsGet fs ("$d") with | some d => truthy d && isArr d | none => false)

mutual
/-- JS string coercion of a value used as a property key (`dst[keys[j]]`
with a non-string key coerces).  Arrays join their elements with commas,
null and undefined joining as empty, objects print as `[object Object]`. -/
def jsKeyOf : Value → String
  | vNull => "null"
  | vBool b => if b then "true" else "false"
  | vNum n => toString n
  | vStr s => s
  | vArr xs => jsKeyArr xs
  | vObj _ => "[object Object]"
/-- `Array.prototype.toString`: elements joined by commas, null printing
as the empty string inside a join. -/
def jsKeyArr : List Value → String
  | [] => ""
  | [v] => jsKeyElem v
  | v :: v2 :: vs => jsKeyElem v ++ "," ++ jsKeyArr (v2 :: vs)
/-- One element of an array join. -/
def jsKeyElem : Value → String
  | vNull => ""
  | vBool b => if b then "true" else "false"
  | vNum n => toString n
  | vStr s => s
  | vArr xs => jsKeyArr xs
  | vObj _ => "[object Object]"
end

/-- The elements of an array value, empty for anything else. -/
def arrElems : Value → List Value
  | vArr xs => xs
  | _ => []

/-- Row slot `dataArr[i][j]`: index into an array row; a non-array row or a
missing index yields JS `undefined`, modelled as `vNull` (such slots arise
only from malformed envelopes, never from generated ones). -/
def rowIndex (row : Value) (j : Nat) : Value :=
  match row with
  | vArr r => (r.get? j).getD vNull
  | _ => vNull

/-- `SchemaDataSeparationStrategy.decompress` (src/dist/strategies.js lines
394-506), fuelled on structural depth (every recursive hop moves to a
strict subterm, so `vsize` fuel suffices; see `schemaDGo_eq`).  A
schema-record object is rebuilt into an array of objects keyed by the `$s`
list in order; other composites are copied structurally. -/
def schemaDGo : Nat → Value → Value
  | 0, v => v
  | fuel + 1, v =>
    match v with
    | vObj fs =>
      if schemaMarkerCheck fs then
        vArr ((arrElems ((jsGet fs ("$d")).getD vNull)).map (fun row =>
          vObj (buildObj ((arrElems ((jsGet fs ("$s")).getD vNull)).enum.map (fun p =>
            (jsKeyOf p.2, schemaDGo fuel (rowIndex row p.1)))))))
      else vObj (buildObj (fs.map (fun p => (p.1, schemaDGo fuel p.2))))
    | vArr xs => vArr (xs.map (schemaDGo fuel))
    | prim => prim

/-- Schema decompression with sufficient fuel. -/
def schemaDecompress (v : Value) : Value := schemaDGo (vsize v) v

/-- UTF-16 code units of a string, the units JS string comparison and the
default `Array.prototype.sort` comparator work on. -/
def utf16Units (s : String) : List Nat :=
  s.data.flatMap (fun c =>
    if c.val < 0x10000 then [c.val.toNat]
    else [0xD800 + (c.val.toNat - 0x10000) / 0x400, 0xDC00 + (c.val.toNat - 0x10000) % 0x400])

/-- Lexicographic order on code-unit lists. -/
def natLexLE : List Nat → List Nat → Bool
  | [], _ => true
  | _ :: _, [] => false
  | a :: as, b :: bs => if a < b then true else if b < a then false else natLexLE as bs

/-- JS default string sort order. -/
def jsStrLE (a b : String) : Bool := natLexLE (utf16Units a) (utf16Units b)

/-- Comma join (`Array.prototype.join(",")` on strings). -/
def commaJoin : List String → String
  | [] => ""
  | [s] => s
  | s :: s2 :: rest => s ++ "," ++ commaJoin (s2 :: rest)

/-- Insert into a sorted list (structural stable insertion sort step). -/
def insSorted (le : String × String → String × String → Bool)
    (x : String × String) : List (String × String) → List (String × String)
  | [] => [x]
  | y :: ys => if le x y then x :: y :: ys else y :: insSorted le x ys

/-- Stable sort of the (key, text) pairs — `Array.prototype.sort` with the
default comparator on distinct keys is order-determined by the comparator
alone, so any correct sort yields the same list. -/
def insSort (le : String × String → String × String → Bool) :
    List (String × String) → List (String × String)
  | [] => []
  | x :: xs => insSorted le x (insSort le xs)

mutual
/-- `StructuralDeduplicationStrategy.canonicalStringify` (src/dist/
strategies.js lines 518-542): deterministic key-sorted serialization.
The source sorts the keys and then serializes each member; here each member
value is serialized first and the (key, string) pairs are then sorted by
key, which produces the same text since members are serialized
independently.  On trees the ancestor check never fires (cycles are
impossible in an inductive value); the cyclic behaviour is settled on the
heap model below. -/
def canonV : Value → String
  | vNull => "null"
  | vBool b => if b then "true" else "false"
  | vNum n => toString n
  | vStr s => jsonQuote s
  | vArr xs => "[" ++ commaJoin (canonL xs) ++ "]"
  | vObj fs =>
    "\x7b" ++ commaJoin ((insSort (fun p q => jsStrLE p.1 q.1) (canonF fs)).map
      (fun p => jsonQuote p.1 ++ ":" ++ p.2)) ++ "\x7d"
/-- Canonical strings of array elements. -/
def canonL : List Value → List String
  | [] => []
  | v :: vs => canonV v :: canonL vs
/-- (key, canonical string) pairs of object members, in member order. -/
def canonF : List (String × Value) → List (String × String)
  | [] => []
  | (k, v) :: fs => (k, canonV v) :: canonF fs
end

/-- Canonical strings of the first-pass scan, in scan order (the insertion
order of the `counts` map). -/
def canonSeq (v : Value) : List String := (compositeSeq v).map canonV

/-- The candidate (canonical form, reference id) pairs of one dedup encode
(src/dist/strategies.js lines 576-582): canonical forms occurring more than
once whose serialized size meets the minimum, in first-occurrence order,
with ids r1, r2, ... -/
def dedupCandidates (minSize : Nat) (v : Value) : List (String × String) :=
  (((firstDedup (canonSeq v)).filter (fun c =>
      decide ((canonSeq v).count c > 1) && decide (utf8Len c ≥ minSize))).enum).map
    (fun p => (p.2, "r" ++ toString (p.1 + 1)))

/-- The representative stored for a canonical form: the first scanned node
with that form (src/dist/strategies.js lines 563-565, 588-590). -/
def dedupRepr (v : Value) (c : String) : Value :=
  ((compositeSeq v).find? (fun s => canonV s == c)).getD vNull

/-- The registry object `$r`: one member per candidate id, holding the
representative subtree (the original node, not its transformed copy). -/
def dedupRegistry (minSize : Nat) (v : Value) : List (String × Value) :=
  (dedupCandidates minSize v).map (fun p => (p.2, dedupRepr v p.1))

/-- Candidate id for a canonical form. -/
def candLookup (cands : List (String × String)) (c : String) : Option String :=
  (cands.find? (fun p => p.1 == c)).map Prod.snd

mutual
/-- The dedup second pass (src/dist/strategies.js lines 591-660): replace
every candidate subtree by a `\x7b$ref: id\x7d` marker, copy everything
else structurally. -/
def dtransV (cands : List (String × String)) : Value → Value
  | vNull => vNull
  | vBool b => vBool b
  | vNum n => vNum n
  | vStr s => vStr s
  | vArr xs =>
    match candLookup cands (canonV (vArr xs)) with
    | some id => vObj [("$ref", vStr id)]
    | none => vArr (dtransL cands xs)
  | vObj fs =>
    match candLookup cands (canonV (vObj fs)) with
    | some id => vObj [("$ref", vStr id)]
    | none => vObj (buildObj (dtransF cands fs))
/-- `dtransV` over array elements. -/
def dtransL (cands : List (String × String)) : List Value → List Value
  | [] => []
  | v :: vs => dtransV cands v :: dtransL cands vs
/-- `dtransV` over object members. -/
def dtransF (cands : List (String × String)) : List (String × Value) → List (String × Value)
  | [] => []
  | (k, v) :: fs => (k, dtransV cands v) :: dtransF cands fs
end

/-- `StructuralDeduplicationStrategy.compress` (src/dist/strategies.js
lines 543-663): primitives and candidate-free values are returned
unchanged; otherwise the `\x7b$r, d\x7d` envelope is built. -/
def dedupCompress (minSize : Nat) (v : Value) : Value :=
  if ¬ isComposite v then v
  else if dedupCandidates minSize v = [] then v
  else vObj [("$r", vObj (dedupRegistry minSize v)),
             ("d", dtransV (dedupCandidates minSize v) v)]

/-- `JSON.parse(JSON.stringify(x))` on a JSON-model value: deep clone,
which by structural induction reproduces the value exactly (member order
and integer numbers preserved); modelled as the identity. -/
def jsonClone (v : Value) : Value := v

/-- The decoder's reference test `root.$ref && typeof root.$ref ===
"string"`: a truthy (nonempty) string-valued `$ref` member. -/
def refCheck (fs : List (String × Value)) : Option String :=
  match jsGet fs ("$ref") with
  | some (vStr s) => if s == "" then none else some s
  | _ => none

mutual
/-- The dedup decoder's `reconstruct` (src/dist/strategies.js lines
668-687): reference markers are replaced by a deep clone of the registry
entry; a missing registry entry makes `JSON.parse(JSON.stringify(
undefined))` throw, modelled as the error case. -/
def reconstructV (reg : List (String × Value)) : Value → Except Unit Value
  | vNull => .ok vNull
  | vBool b => .ok (vBool b)
  | vNum n => .ok (vNum n)
  | vStr s => .ok (vStr s)
  | vArr xs => (reconstructL reg xs).map vArr
  | vObj fs =>
    match refCheck fs with
    | some id =>
      match jsGet reg id with
      | some rep => .ok (jsonClone rep)
      | none => .error ()
    | none => (reconstructF reg fs).map (fun l => vObj (buildObj l))
/-- `reconstructV` over array elements. -/
def reconstructL (reg : List (String × Value)) : List Value → Except Unit (List Value)
  | [] => .ok []
  | v :: vs => do
    let w ← reconstructV reg v
    let ws ← reconstructL reg vs
    .ok (w :: ws)
/-- `reconstructV` over object members. -/
def reconstructF (reg : List (String × Value)) : List (String × Value) → Except Unit (List (String × Value))
  | [] => .ok []
  | (k, v) :: fs => do
    let w ← reconstructV reg v
    let ws ← reconstructF reg fs
    .ok ((k, w) :: ws)
end

/-- The registry member list of an envelope's `$r`. -/
def regOf (r : Option Value) : List (String × Value) :=
  match r with
  | some (vObj fs) => fs
  | _ => []

/-- `StructuralDeduplicationStrategy.decompress` (src/dist/strategies.js
lines 664-689): anything that is not a `\x7b$r, d\x7d` envelope (package
falsy, `$r` missing or falsy, `d` absent) is returned unchanged. -/
def dedupDecompress (pkg : Value) : Except Unit Value :=
  if truthy pkg && (match mField pkg ("$r") with | some r => truthy r | none => false)
     && (mField pkg ("d")).isSome then
    reconstructV (regOf (mField pkg ("$r"))) ((mField pkg ("d")).getD vNull)
  else .ok pkg

mutual
/-- The `totalBytes` accumulator of `Analyzer.analyze` (src analyzer,
iterative traversal): fixed per-type overheads — brackets and commas for
composites, `"key":` as UTF-16 key length plus 3, string values as UTF-8
bytes plus quotes, numbers and booleans as their decimal text length,
null as 4. -/
def tbV : Value → Nat
  | vNull => 4
  | vBool b => if b then 4 else 5
  | vNum n => (toString n).length
  | vStr s => utf8Len s + 2
  | vArr xs => 2 + (xs.length - 1) + tbL xs
  | vObj fs => 2 + (fs.length - 1) + tbF fs
/-- Byte contributions of array elements. -/
def tbL : List Value → Nat
  | [] => 0
  | v :: vs => tbV v + tbL vs
/-- Byte contributions of object members (key text plus quotes and colon,
then the value). -/
def tbF : List (String × Value) → Nat
  | [] => 0
  | (k, v) :: fs => jsLength k + 3 + tbV v + tbF fs
end

/-- `Analyzer.analyze(...).totalBytes`: primitives at the root are measured
by serializing (analyzer pre-flight branch), composites by the traversal
accumulators. -/
def analyzeTotalBytes (v : Value) : Nat :=
  if isComposite v then tbV v else utf8Len (jsonStringify v)

/-- `Object.keys` of a value as the analyzer's schema check sees it: member
keys for objects, index strings for arrays, nothing for primitives. -/
def keysOfJs : Value → List String
  | vObj fs => fs.map Prod.fst
  | vArr xs => (List.range xs.length).map (fun i => toString i)
  | _ => []

/-- One sampled item of `calculateArraySchemaSavings`'s consistency loop:
a non-null non-array object with the same key count as the first element,
all of whose keys include the first element's keys. -/
def sampleConsistent (ks : List String) (it : Value) : Bool :=
  match it with
  | vObj fsi => (fsi.length == ks.length) && ks.all (fun k => (fsi.map Prod.fst).contains k)
  | _ => false

/-- `calculateArraySchemaSavings` (src analyzer): estimate of the per-row
key overhead saved by schema separation, testing only up to five leading
elements for key-set consistency.  Integer arithmetic throughout. -/
def calcArraySchemaSavings (xs : List Value) : Int :=
  if xs.length < 2 then 0
  else
    match xs.head? with
    | some h =>
      if ¬ isComposite h then 0
      else
        let ks := keysOfJs h
        if ks.length = 0 then 0
        else if ((xs.take (min xs.length 5)).drop 1).all (sampleConsistent ks) then
          let keysLen : Int := ((ks.map jsLength).sum : Nat)
          let perItemOverhead := keysLen + ks.length * 2
          let schemaArrayOverhead := keysLen + ks.length * 2 + 5
          max 0 ((xs.length - 1 : Int) * perItemOverhead - schemaArrayOverhead)
        else 0
    | none => 0

mutual
/-- The analyzer's accumulated schema-savings estimate: every array
contributes its own `calcArraySchemaSavings`. -/
def ssV : Value → Int
  | vNull => 0
  | vBool _ => 0
  | vNum _ => 0
  | vStr _ => 0
  | vArr xs => calcArraySchemaSavings xs + ssL xs
  | vObj fs => ssF fs
/-- Schema savings over array elements. -/
def ssL : List Value → Int
  | [] => 0
  | v :: vs => ssV v + ssL vs
/-- Schema savings over object members. -/
def ssF : List (String × Value) → Int
  | [] => 0
  | (_, v) :: fs => ssV v + ssF fs
end

/-- `metrics.estimatedSchemaSavings`: the accumulated estimate minus the
schema metadata tax, floored at 0 (0 for a primitive root, analyzer
pre-flight branch). -/
def estimatedSchemaSavings (v : Value) : Int :=
  if isComposite v then max 0 (ssV v - 20) else 0

/-- Total number of object keys seen by the analyzer's traversal. -/
def totalKeysCount (v : Value) : Nat := (keySeq v).length

/-- Total UTF-16 length of all object keys seen by the traversal. -/
def totalKeyLength (v : Value) : Nat := ((keySeq v).map jsLength).sum

/-- `metrics.estimatedAbbrevSavings` (src analyzer, final computation):
conservative token-aware estimate in exact rational arithmetic (the JS
floats 1.5 and 0.2 are the rationals 3/2 and 1/5; no claim depends on
float rounding). -/
def estimatedAbbrevSavings (v : Value) : ℚ :=
  if isComposite v then
    let tkc : ℚ := (totalKeysCount v : ℚ)
    let avgKeyLen : ℚ := if totalKeysCount v > 0 then (totalKeyLength v : ℚ) / tkc else 0
    let estimatedMapOverhead := tkc * (1 / 5) * (avgKeyLen + 5)
    let rawAbbrevSavings := tkc * (3 / 2)
    max 0 (rawAbbrevSavings - estimatedMapOverhead - 60)
  else 0

mutual
/-- `hasSchemaMarker` (src/dist/index.js lines 54-71): does any object in
the tree have both a `$s` and a `$d` member (own-key presence, not
truthiness). -/
def hasSchemaMarker : Value → Bool
  | vNull => false
  | vBool _ => false
  | vNum _ => false
  | vStr _ => false
  | vArr xs => hasSchemaMarkerL xs
  | vObj fs => ((jsGet fs ("$s")).isSome && (jsGet fs ("$d")).isSome) || hasSchemaMarkerF fs
/-- Marker search over array elements. -/
def hasSchemaMarkerL : List Value → Bool
  | [] => false
  | v :: vs => hasSchemaMarker v || hasSchemaMarkerL vs
/-- Marker search over object member values. -/
def hasSchemaMarkerF : List (String × Value) → Bool
  | [] => false
  | (_, v) :: fs => hasSchemaMarker v || hasSchemaMarkerF fs
end

/-- `restore` (src/dist/index.js lines 25-52): fixed-priority format
sniffing.  The dictionary shape fires only when `data`, `data.m` and
`data.d` are all truthy; then the schema marker is searched anywhere in the
tree; then the dedup shape (`$r` truthy, `d` present); then the YAML
marker, whose load function is the external serializer collaborator of
spec section 6; otherwise the input is returned unchanged. -/
def restore (dict : List (String × String)) (yload : String → Value) (pkg : Value) : Except Unit Value :=
  if truthy pkg && (match mField pkg ("m") with | some m => truthy m | none => false)
     && (match mField pkg ("d") with | some d => truthy d | none => false) then
    .ok (dictDecompress dict pkg)
  else if hasSchemaMarker pkg then .ok (schemaDecompress pkg)
  else if truthy pkg && (match mField pkg ("$r") with | some r => truthy r | none => false)
     && (mField pkg ("$r")).isSome && (mField pkg ("d")).isSome then
    dedupDecompress pkg
  else
    match mField pkg ("$y") with
    | some (vStr s) => if s == "" then .ok pkg else .ok (yload s)
    | _ => .ok pkg

/-- The options record of `Optimizer.optimize` (src/dist/optimizer.js lines
26-31, 60-62), with the source's defaults listed at each field.  The token
oracle, the YAML serializer and the data-refinement preprocessor are the
external collaborators of spec section 6 and are passed as opaque
functions. -/
structure OptimizerOptions where
  aggressive : Bool := false
  thresholdBytes : Nat := 1024
  unsafeMode : Bool := false
  validateTokenSavings : Bool := true
  yamlEnabled : Bool := true
  customDict : Option (List (String × String)) := none
  dataRefinementEnabled : Bool := false
  fastMode : Bool := true
  fastSize : Nat := 512

/-- `countTokens` (src/dist/optimizer.js lines 49-54): the cost function
applied to a value serializes non-strings first. -/
def costV (tokFn : String → Nat) (v : Value) : Nat :=
  tokFn (match v with | vStr s => s | _ => jsonStringify v)

/-- `applySpeculative` (src/dist/optimizer.js lines 64-91): encode the
working value, accept only if the token count or the byte length strictly
decreased (byte length alone when validation is off).  Strategy encodes
are total on trees, so the catch-and-skip branch cannot fire. -/
def applySpec (validate : Bool) (tokFn : String → Nat) (strat : Value → Value) (cur : Value) : Value :=
  let cand := strat cur
  if validate then
    if costV tokFn cand < costV tokFn cur || jsonBytes cand < jsonBytes cur then cand else cur
  else
    if jsonBytes cand < jsonBytes cur then cand else cur

/-- The YAML final pass (yamlStrategy.js): wrap the external serializer's
text in a `\x7b$y: text\x7d` marker. -/
def yamlCompress (dump : Value → String) (v : Value) : Value :=
  vObj [("$y", vStr (dump v))]

/-- The speculative pass pipeline of `Optimizer.optimize` (src/dist/
optimizer.js lines 92-123), starting from the (optionally refined) working
value: Dedup and Schema unless fast mode suppresses them (Schema still
attempted when the analyzer predicts enough savings), then Abbreviation,
then optional Ultra Compact, then the optional YAML pass. -/
def optimizePipeline (opts : OptimizerOptions) (tokFn : String → Nat)
    (dump : Value → String) (refineFn : Value → Value) (v : Value) : Value :=
  let dict := opts.customDict.getD DICT
  let val := opts.validateTokenSavings
  let cur0 := if opts.dataRefinementEnabled then refineFn v else v
  let cur1 :=
    if ¬ opts.fastMode || analyzeTotalBytes v ≥ opts.fastSize then
      applySpec val tokFn schemaCompress (applySpec val tokFn (dedupCompress 64) cur0)
    else if estimatedSchemaSavings v > 50
        || (estimatedSchemaSavings v : ℚ) > estimatedAbbrevSavings v then
      applySpec val tokFn schemaCompress cur0
    else cur0
  let cur2 := applySpec val tokFn (abbrevCompress dict) cur1
  let cur3 := if opts.aggressive then applySpec val tokFn (ultraCompress opts.unsafeMode) cur2 else cur2
  if opts.yamlEnabled then applySpec val tokFn (yamlCompress dump) cur3 else cur3

/-- `Optimizer.optimize` (src/dist/optimizer.js lines 26-139): below the
byte threshold the input passes through unchanged (minify is the identity
on values); otherwise the speculative pipeline runs and, when validation is
requested, the result is discarded for the original input if its token
count exceeds the original's. -/
def optimize (opts : OptimizerOptions) (tokFn : String → Nat)
    (dump : Value → String) (refineFn : Value → Value) (v : Value) : Value :=
  if analyzeTotalBytes v < opts.thresholdBytes then v
  else
    let fin := optimizePipeline opts tokFn dump refineFn v
    if opts.validateTokenSavings && decide (costV tokFn fin > costV tokFn v) then v else fin

mutual
/-- All object keys occurring in a tree (multiset), by plain structural
recursion; same multiset as `keySeq`, used to quantify per-key hypotheses. -/
def treeKeys : Value → List String
  | vNull => []
  | vBool _ => []
  | vNum _ => []
  | vStr _ => []
  | vArr xs => treeKeysL xs
  | vObj fs => fs.map Prod.fst ++ treeKeysF fs
/-- Tree keys over array elements. -/
def treeKeysL : List Value → List String
  | [] => []
  | v :: vs => treeKeys v ++ treeKeysL vs
/-- Tree keys over object member values. -/
def treeKeysF : List (String × Value) → List String
  | [] => []
  | (_, v) :: fs => treeKeys v ++ treeKeysF fs
end

mutual
/-- All composite subtrees of a value, with multiplicity, by structural
recursion (the dedup scan's `compositeSeq` is a permutation of this list). -/
def subtreesV : Value → List Value
  | vNull => []
  | vBool _ => []
  | vNum _ => []
  | vStr _ => []
  | vArr xs => vArr xs :: subtreesL xs
  | vObj fs => vObj fs :: subtreesF fs
/-- Composite subtrees of array elements. -/
def subtreesL : List Value → List Value
  | [] => []
  | v :: vs => subtreesV v ++ subtreesL vs
/-- Composite subtrees of object member values. -/
def subtreesF : List (String × Value) → List Value
  | [] => []
  | (_, v) :: fs => subtreesV v ++ subtreesF fs
end

/-!
## Heap model

Sharing and cycles are invisible in the inductive tree model, but the
cycle-handling claims are exactly about them: a JS value graph is modelled
as a heap of composite nodes addressed by `Nat`, with leaves inline.  Only
traversal **control** (does the walk terminate, and with which error) is
modelled: the destination structures the source machines assemble do not
influence which nodes are visited.  Each walk is fuelled by reference
depth: a walk diverges on a heap exactly when no fuel suffices (the graphs
are finitely branching, so unbounded visit depth is divergence).
-/

/-- A heap value: a leaf, or a reference to a composite node. -/
inductive HVal where
  | hNull
  | hBool (b : Bool)
  | hNum (n : Int)
  | hStr (s : String)
  | hRef (a : Nat)

/-- A composite heap node. -/
inductive HNode where
  | nObj (fs : List (String × HVal))
  | nArr (xs : List HVal)

/-- A heap: node at address `a` is entry `a` of the list. -/
def Heap := List HNode

/-- Node at an address (out-of-range addresses, which do not occur in a
well-formed value graph, read as an empty object). -/
def nodeOf (h : Heap) (a : Nat) : HNode := (List.get? h a).getD (.nObj [])

/-- The child values a traversal visits from one node, in source iteration
order. -/
def nodeChildren : HNode → List HVal
  | .nObj fs => fs.map Prod.snd
  | .nArr xs => xs

/-- Traversal outcome errors: the source's `Circular reference detected`,
or exhaustion of the depth budget (divergence when no budget suffices). -/
inductive TravErr where
  | circular
  | outOfFuel

/-- Control walk of `Analyzer.analyze` (src analyzer lines 105-127 of the
iterative traversal): ancestor set tracked along the current path — pushed
on enter, removed on leave, here by passing `a :: anc` only to the
children's walks. -/
def analyzeW (h : Heap) : Nat → List Nat → HVal → Except TravErr Unit
  | fuel, anc, .hRef a =>
    if a ∈ anc then .error .circular
    else
      match fuel with
      | 0 => .error .outOfFuel
      | fuel + 1 => (nodeChildren (nodeOf h a)).foldlM (fun _ c => analyzeW h fuel (a :: anc) c) ()
  | _, _, _ => .ok ()

/-- Control walk of `AbbreviatedKeysStrategy.compress`'s transform
(src/dist/strategies.js lines 98-107): the visited set is global — marked
on first visit and never removed — so it is threaded through the walk as
state.  The source processes children in stack (last-pushed-first) order;
whether *some* node is re-encountered does not depend on that order, and
the concrete inputs settled here give the same verdict either way. -/
def abbrevW (h : Heap) : Nat → List Nat → HVal → Except TravErr (List Nat)
  | fuel, vis, .hRef a =>
    if a ∈ vis then .error .circular
    else
      match fuel with
      | 0 => .error .outOfFuel
      | fuel + 1 => (nodeChildren (nodeOf h a)).foldlM (fun vis2 c => abbrevW h fuel vis2 c) (a :: vis)
  | _, vis, _ => .ok vis

/-- Is this heap value a reference to an object node. -/
def hIsObjRef (h : Heap) (v : HVal) : Bool :=
  match v with
  | .hRef a => match nodeOf h a with | .nObj _ => true | _ => false
  | _ => false

/-- Keys of the object node a heap value references. -/
def hObjKeys (h : Heap) (v : HVal) : List String :=
  match v with
  | .hRef a => match nodeOf h a with | .nObj fs => fs.map Prod.fst | _ => []
  | _ => []

/-- The uniform-array test of `SchemaDataSeparationStrategy.compress` on
the heap. -/
def hAllMatch (h : Heap) (xs : List HVal) : Bool :=
  match xs with
  | v0 :: rest =>
    hIsObjRef h v0 &&
    rest.all (fun it =>
      hIsObjRef h it && ((hObjKeys h it).length == (hObjKeys h v0).length)
        && (hObjKeys h v0).all (fun k => (hObjKeys h it).contains k))
  | [] => false

/-- Field values `src[i][keys[j]]` of a uniform-array element. -/
def hObjFieldVals (h : Heap) (el : HVal) (ks : List String) : List HVal :=
  match el with
  | .hRef a =>
    match nodeOf h a with
    | .nObj fs => ks.map (fun k => ((fs.find? (fun p => p.1 == k)).map Prod.snd).getD .hNull)
    | _ => []
  | _ => []

/-- Control walk of `SchemaDataSeparationStrategy.compress`
(src/dist/strategies.js lines 265-393): **no cycle detection** — plain
traversal; uniform arrays recurse directly into the elements' field values
(the element objects themselves are never re-entered), other composites
into their children. -/
def schemaW (h : Heap) : Nat → HVal → Except TravErr Unit
  | fuel, .hRef a =>
    (match fuel with
     | 0 => .error .outOfFuel
     | fuel + 1 =>
       match nodeOf h a with
       | .nArr xs =>
         if hAllMatch h xs then
           (xs.flatMap (fun el => hObjFieldVals h el (hObjKeys h (xs.headD .hNull)))).foldlM
             (fun _ c => schemaW h fuel c) ()
         else xs.foldlM (fun _ c => schemaW h fuel c) ()
       | .nObj fs => (fs.map Prod.snd).foldlM (fun _ c => schemaW h fuel c) ())
  | _, _ => .ok ()

/-- Control walk of `UltraCompactStrategy.compress`'s transform
(src/dist/strategies.js lines 713-792): **no cycle detection** — plain
depth-first traversal of all children. -/
def ultraW (h : Heap) : Nat → HVal → Except TravErr Unit
  | fuel, .hRef a =>
    (match fuel with
     | 0 => .error .outOfFuel
     | fuel + 1 => (nodeChildren (nodeOf h a)).foldlM (fun _ c => ultraW h fuel c) ())
  | _, _ => .ok ()

/-- Control walk of `StructuralDeduplicationStrategy.canonicalStringify`
(src/dist/strategies.js lines 518-542): ancestors added on entry and
deleted before returning — the current path only.  Children are serialized
in sorted key order; the control verdicts settled here do not depend on
sibling order. -/
def canonW (h : Heap) : Nat → List Nat → HVal → Except TravErr Unit
  | fuel, anc, .hRef a =>
    if a ∈ anc then .error .circular
    else
      match fuel with
      | 0 => .error .outOfFuel
      | fuel + 1 => (nodeChildren (nodeOf h a)).foldlM (fun _ c => canonW h fuel (a :: anc) c) ()
  | _, _, _ => .ok ()

/-- Control of the dedup first-pass scan (src/dist/strategies.js lines
550-574): pop a node, canonicalize it (which can raise `circular`), push
its children. -/
def dedupScanW (h : Heap) : Nat → List HVal → Except TravErr Unit
  | _, [] => .ok ()
  | fuel, v :: rest =>
    match v with
    | .hRef a =>
      (match fuel with
       | 0 => .error .outOfFuel
       | fuel + 1 => do
         _ ← canonW h (fuel + 1) [] v
         dedupScanW h fuel ((nodeChildren (nodeOf h a)).reverse ++ rest))
    | _ =>
      (match fuel with
       | 0 => .error .outOfFuel
       | fuel + 1 => dedupScanW h fuel rest)

/-- Control of the dedup second pass (src/dist/strategies.js lines
591-660): each composite node is canonicalized again and its children
walked (replacing a candidate node stops its subtree's walk early; on the
inputs settled here no candidate exists, so the full walk is exact). -/
def dtransW (h : Heap) : Nat → HVal → Except TravErr Unit
  | fuel, .hRef a =>
    (match fuel with
     | 0 => .error .outOfFuel
     | fuel + 1 => do
       _ ← canonW h (fuel + 1) [] (.hRef a)
       (nodeChildren (nodeOf h a)).foldlM (fun _ c => dtransW h fuel c) ())
  | _, _ => .ok ()

/-- Control of `StructuralDeduplicationStrategy.compress` on the heap:
the scan pass followed by the transform pass. -/
def dedupCompressW (h : Heap) (fuel : Nat) (root : HVal) : Except TravErr Unit := do
  _ ← dedupScanW h fuel [root]
  dtransW h fuel root

/-- A rank function witnessing acyclicity of a heap: every reference edge
strictly decreases the rank. -/
def RankOk (h : Heap) (rank : Nat → Nat) : Prop :=
  ∀ a, ∀ c ∈ nodeChildren (nodeOf h a), ∀ b, c = HVal.hRef b → rank b < rank a

/-- The cyclic value of the claims: `a = \x7bx: 1\x7d; a.self = a`. -/
def heapCyc : Heap := [.nObj [("x", .hNum 1), ("self", .hRef 0)]]

/-- A shared-but-acyclic value: `b = \x7bx: 1\x7d; v = \x7bp: b, q: b\x7d`
— the same node reachable along two different paths, no cycle. -/
def heapShared : Heap := [.nObj [("p", .hRef 1), ("q", .hRef 1)], .nObj [("x", .hNum 1)]]

mutual
/-- Every string in the tree — string values and object keys — is
escape-free (no character rewritten by JSON escaping). -/
def escFreeV : Value → Bool
  | vNull => true
  | vBool _ => true
  | vNum _ => true
  | vStr s => escapeFree s
  | vArr xs => escFreeL xs
  | vObj fs => escFreeF fs
/-- Escape-freedom over array elements. -/
def escFreeL : List Value → Bool
  | [] => true
  | v :: vs => escFreeV v && escFreeL vs
/-- Escape-freedom over object members (key and value). -/
def escFreeF : List (String × Value) → Bool
  | [] => true
  | (k, v) :: fs => escapeFree k && escFreeV v && escFreeF fs
end

mutual
/-- Every object key in the tree is ASCII. -/
def keysAsciiV : Value → Bool
  | vNull => true
  | vBool _ => true
  | vNum _ => true
  | vStr _ => true
  | vArr xs => keysAsciiL xs
  | vObj fs => keysAsciiF fs
/-- ASCII keys over array elements. -/
def keysAsciiL : List Value → Bool
  | [] => true
  | v :: vs => keysAsciiV v && keysAsciiL vs
/-- ASCII keys over object members. -/
def keysAsciiF : List (String × Value) → Bool
  | [] => true
  | (k, v) :: fs => asciiStr k && keysAsciiV v && keysAsciiF fs
end

/-- Collision-freedom of one Key Abbreviation encode on `v`: the decoder's
key recovery inverts the encoder's key mapping on every key occurring in
`v` (this fails exactly on the token-collision counterexamples). -/
def abbrevInvertibleB (dict : List (String × String)) (v : Value) : Bool :=
  (treeKeys v).all (fun k =>
    decodeKey dict (abbrevMapOf dict v) (abbrevTarget dict (abbrevMapOf dict v) v k) == k)

/-- Collision-freedom of one safe Ultra Compact encode on `v`. -/
def ultraInvertibleB (dict : List (String × String)) (v : Value) : Bool :=
  (treeKeys v).all (fun k =>
    decodeKey dict (ultraMapOf v) (ultraTarget (ultraMapOf v) k) == k)

/-- Schema-safety of `v`: no object of `v` carries both `$s` and `$d`
members (so no decoder misfire), and every array the encoder
schema-detects has all elements' key lists equal to the first element's
key list in order (the record stores one key order for all rows). -/
def schemaSafeB (v : Value) : Bool :=
  (subtreesV v).all (fun o =>
    match o with
    | vObj fs => !((jsGet fs ("$s")).isSome && (jsGet fs ("$d")).isSome)
    | vArr xs => !(allMatch xs) || xs.all (fun el => keysOfJs el == headKeys xs)
    | _ => true)

/-- Is a value shaped like a dedup registry envelope (what
`StructuralDeduplicationStrategy.decompress` dispatches on). -/
def isRegEnvB (v : Value) : Bool :=
  truthy v && (match mField v ("$r") with | some r => truthy r | none => false)
    && (mField v ("d")).isSome

/-- Dedup-safety of `v`: no object of `v` carries a `$ref` member (no
decoder misfire), canonically-equal composite subtrees are equal (the
registry stores one representative for all occurrences), and `v` itself is
not shaped like a registry envelope (so the not-applicable passthrough is
decoded as itself). -/
def dedupSafeB (v : Value) : Bool :=
  (subtreesV v).all (fun o =>
    match o with
    | vObj fs => (jsGet fs ("$ref")).isNone
    | _ => true) &&
  (subtreesV v).all (fun s => (subtreesV v).all (fun t =>
    !(canonV s == canonV t) || decide (s = t))) &&
  !(isRegEnvB v)

/-- The key assignments one Key Abbreviation encode uses on `v`: the
static-dictionary assignments of `v`'s keys that are in the dictionary,
together with the dynamically generated map `m` (claim C5's combined
dictionary). -/
def usedAssignments (dict : List (String × String)) (v : Value) : List (String × String) :=
  (firstDedup (treeKeys v)).filterMap (fun k => (dictGet dict k).map (fun t => (k, t)))
    ++ abbrevMapOf dict v

/-!
## Supporting lemmas
-/

theorem jsSet_of_not_mem (acc : List (String × Value)) (k : String) (v : Value)
    (h : ∀ p ∈ acc, p.1 ≠ k) : jsSet acc k v = acc ++ [(k, v)] := by
  unfold jsSet
  rw [if_neg]
  intro hx
  rw [List.any_eq_true] at hx
  obtain ⟨p, hp, he⟩ := hx
  exact h p hp (by simpa using he)

theorem buildObj_go (ps : List (String × Value)) : ∀ acc : List (String × Value),
    ((acc ++ ps).map Prod.fst).Nodup →
    ps.foldl (fun a p => jsSet a p.1 p.2) acc = acc ++ ps := by
  induction ps with
  | nil => intro acc _; simp
  | cons p ps ih =>
    intro acc hn
    obtain ⟨k, v⟩ := p
    rw [List.foldl_cons]
    have hnotin : ∀ q ∈ acc, q.1 ≠ k := by
      intro q hq he
      simp only [List.map_append, List.nodup_append] at hn
      exact hn.2.2 (List.mem_map_of_mem Prod.fst hq) (by simp [he])
    rw [jsSet_of_not_mem acc k v hnotin, ih (acc ++ [(k, v)]) (by simpa using hn)]
    simp

theorem buildObj_eq_self (ps : List (String × Value)) (hn : (ps.map Prod.fst).Nodup) :
    buildObj ps = ps := by
  have := buildObj_go ps [] (by simpa using hn)
  simpa [buildObj] using this

theorem keyRewriteF_map_fst (f : String → String) : ∀ fs : List (String × Value),
    (keyRewriteF f fs).map Prod.fst = (fs.map Prod.fst).map f := by
  intro fs
  induction fs with
  | nil => rfl
  | cons p fs ih => obtain ⟨k, v⟩ := p; rw [keyRewriteF]; simpa using ih

mutual
theorem keyRewrite_rt (f g : String → String) : ∀ v, wfV v = true →
    (∀ k ∈ treeKeys v, g (f k) = k) → keyRewrite g (keyRewrite f v) = v
  | vNull, _, _ => rfl
  | vBool _, _, _ => rfl
  | vNum _, _, _ => rfl
  | vStr _, _, _ => rfl
  | vArr xs, hw, hk => by
    rw [keyRewrite, keyRewrite,
      keyRewriteL_rt f g xs (by simpa [wfV] using hw) (by simpa [treeKeys] using hk)]
  | vObj fs, hw, hk => by
    have hw2 : ((fs.map Prod.fst).Nodup) ∧ wfF fs = true := by
      rw [wfV, Bool.and_eq_true, decide_eq_true_eq] at hw; exact hw
    have hk2 : ∀ k ∈ fs.map Prod.fst ++ treeKeysF fs, g (f k) = k := by
      simpa [treeKeys] using hk
    have hinj : ((keyRewriteF f fs).map Prod.fst).Nodup := by
      rw [keyRewriteF_map_fst]
      refine List.Nodup.map_on ?_ hw2.1
      intro a ha b hb he
      have ha2 := hk2 a (List.mem_append_left _ ha)
      have hb2 := hk2 b (List.mem_append_left _ hb)
      rw [← ha2, ← hb2, he]
    rw [keyRewrite, buildObj_eq_self _ hinj, keyRewrite,
      keyRewriteF_rt f g fs hw2.2 hk2, buildObj_eq_self fs hw2.1]
theorem keyRewriteL_rt (f g : String → String) : ∀ xs, wfL xs = true →
    (∀ k ∈ treeKeysL xs, g (f k) = k) → keyRewriteL g (keyRewriteL f xs) = xs
  | [], _, _ => rfl
  | v :: vs, hw, hk => by
    rw [wfL, Bool.and_eq_true] at hw
    rw [keyRewriteL, keyRewriteL,
      keyRewrite_rt f g v hw.1 (fun k hm => hk k (by simp [treeKeysL, hm])),
      keyRewriteL_rt f g vs hw.2 (fun k hm => hk k (by simp [treeKeysL, hm]))]
theorem keyRewriteF_rt (f g : String → String) : ∀ fs, wfF fs = true →
    (∀ k ∈ fs.map Prod.fst ++ treeKeysF fs, g (f k) = k) →
    keyRewriteF g (keyRewriteF f fs) = fs
  | [], _, _ => rfl
  | (k, v) :: fs, hw, hk => by
    rw [wfF, Bool.and_eq_true] at hw
    have hkk : g (f k) = k := hk k (by simp)
    rw [keyRewriteF, keyRewriteF, hkk,
      keyRewrite_rt f g v hw.1 (fun k2 hm => hk k2 (by simp [treeKeysF, hm])),
      keyRewriteF_rt f g fs hw.2 (fun k2 hm => by
        rcases List.mem_append.mp hm with h1 | h1
        · exact hk k2 (by simp [h1])
        · exact hk k2 (by simp [treeKeysF, h1]))]
end

theorem mEntriesStr_strMap : ∀ l : List (String × String),
    mEntriesStr (vObj (l.map (fun p => (p.1, vStr p.2)))) = l := by
  intro l
  induction l with
  | nil => rfl
  | cons p l ih =>
    obtain ⟨k, t⟩ := p
    simpa [mEntriesStr] using (by simpa [mEntriesStr] using ih)

theorem abbrev_roundtrip (dict : List (String × String)) (v : Value)
    (hw : wfV v = true) (hinv : abbrevInvertibleB dict v = true) :
    dictDecompress dict (abbrevCompress dict v) = v := by
  rw [abbrevCompress, dictDecompress]
  rw [if_pos]
  · simp only [mField, jsGet, List.find?]
    norm_num
    rw [mEntriesStr_strMap]
    refine keyRewrite_rt _ _ v hw ?_
    intro k hk
    rw [abbrevInvertibleB, List.all_eq_true] at hinv
    exact eq_of_beq (hinv k hk)
  · simp [mField, jsGet, truthy, List.find?]

theorem ultra_roundtrip (dict : List (String × String)) (v : Value)
    (hw : wfV v = true) (hinv : ultraInvertibleB dict v = true) :
    dictDecompress dict (ultraCompress false v) = v := by
  rw [ultraCompress, dictDecompress]
  rw [if_pos]
  · simp only [mField, jsGet, List.find?]
    norm_num
    rw [mEntriesStr_strMap]
    refine keyRewrite_rt _ _ v hw ?_
    intro k hk
    rw [ultraInvertibleB, List.all_eq_true] at hinv
    exact eq_of_beq (hinv k hk)
  · simp [mField, jsGet, truthy, List.find?]

theorem vsize_pos : ∀ v, 1 ≤ vsize v := by
  intro v
  cases v <;> simp [vsize]

theorem vsizeL_mem_le {x : Value} : ∀ {xs : List Value}, x ∈ xs → vsize x ≤ vsizeL xs := by
  intro xs
  induction xs with
  | nil => intro h; cases h
  | cons y ys ih =>
    intro h
    rw [vsizeL]
    rcases List.mem_cons.mp h with h1 | h1
    · rw [h1]; omega
    · have := ih h1
      omega

theorem vsizeF_mem_le {k : String} {w : Value} : ∀ {fs : List (String × Value)},
    (k, w) ∈ fs → vsize w + 1 ≤ vsizeF fs := by
  intro fs
  induction fs with
  | nil => intro h; cases h
  | cons p ps ih =>
    intro h
    obtain ⟨k2, w2⟩ := p
    rw [vsizeF]
    rcases List.mem_cons.mp h with h1 | h1
    · cases h1; omega
    · have := ih h1
      omega

theorem jsGet_some_mem {fs : List (String × Value)} {k : String} {w : Value}
    (h : jsGet fs k = some w) : ∃ k2, (k2, w) ∈ fs := by
  rw [jsGet] at h
  obtain ⟨p, hp, he⟩ := Option.map_eq_some'.mp h
  refine ⟨p.1, ?_⟩
  rw [← he, Prod.mk.eta]
  exact List.mem_of_find?_eq_some hp

theorem wfL_mem : ∀ {xs : List Value}, wfL xs = true → ∀ {x}, x ∈ xs → wfV x = true := by
  intro xs
  induction xs with
  | nil => intro _ x h; cases h
  | cons y ys ih =>
    intro hw x h
    rw [wfL, Bool.and_eq_true] at hw
    rcases List.mem_cons.mp h with h1 | h1
    · rw [h1]; exact hw.1
    · exact ih hw.2 h1

theorem wfF_mem : ∀ {fs : List (String × Value)}, wfF fs = true →
    ∀ {k w}, (k, w) ∈ fs → wfV w = true := by
  intro fs
  induction fs with
  | nil => intro _ k w h; cases h
  | cons p ps ih =>
    intro hw k w h
    obtain ⟨k2, w2⟩ := p
    rw [wfF, Bool.and_eq_true] at hw
    rcases List.mem_cons.mp h with h1 | h1
    · cases h1; exact hw.1
    · exact ih hw.2 h1

theorem subtreesL_mem_sub {x : Value} : ∀ {xs : List Value}, x ∈ xs →
    ∀ {o}, o ∈ subtreesV x → o ∈ subtreesL xs := by
  intro xs
  induction xs with
  | nil => intro h; cases h
  | cons y ys ih =>
    intro h o ho
    rw [subtreesL, List.mem_append]
    rcases List.mem_cons.mp h with h1 | h1
    · exact Or.inl (h1 ▸ ho)
    · exact Or.inr (ih h1 ho)

theorem subtreesF_mem_sub {k : String} {w : Value} : ∀ {fs : List (String × Value)},
    (k, w) ∈ fs → ∀ {o}, o ∈ subtreesV w → o ∈ subtreesF fs := by
  intro fs
  induction fs with
  | nil => intro h; cases h
  | cons p ps ih =>
    intro h o ho
    obtain ⟨k2, w2⟩ := p
    rw [subtreesF, List.mem_append]
    rcases List.mem_cons.mp h with h1 | h1
    · cases h1; exact Or.inl ho
    · exact Or.inr (ih h1 ho)

theorem schemaCompressL_eq_map : ∀ xs : List Value, schemaCompressL xs = xs.map schemaCompress := by
  intro xs
  induction xs with
  | nil => rfl
  | cons y ys ih => rw [schemaCompressL, ih]; rfl

theorem schemaCompressF_eq_map : ∀ fs : List (String × Value),
    schemaCompressF fs = fs.map (fun p => (p.1, schemaCompress p.2)) := by
  intro fs
  induction fs with
  | nil => rfl
  | cons p ps ih => obtain ⟨k, v⟩ := p; rw [schemaCompressF, ih]; rfl

theorem jsGet_map_value (g : Value → Value) : ∀ (fs : List (String × Value)) (k : String),
    jsGet (fs.map (fun p => (p.1, g p.2))) k = (jsGet fs k).map g := by
  intro fs k
  induction fs with
  | nil => rfl
  | cons p ps ih =>
    obtain ⟨k2, v2⟩ := p
    simp only [List.map_cons, jsGet, List.find?_cons]
    by_cases hb : (k2 == k) = true
    · simp [hb]
    · simp only [hb, if_neg, Bool.false_eq_true, not_false_eq_true, if_false]
      simpa [jsGet] using ih

theorem rowIndex_le (row : Value) (j : Nat) : vsize (rowIndex row j) ≤ vsize row := by
  cases row with
  | vArr r =>
    rw [rowIndex]
    cases hg : r.get? j with
    | some e =>
      have hm : e ∈ r := List.get?_mem hg
      have := vsizeL_mem_le hm
      simp only [Option.getD_some]
      rw [vsize]
      omega
    | none =>
      simp only [Option.getD_none]
      exact vsize_pos _
  | vNull => exact le_refl _
  | vBool b => exact vsize_pos _
  | vNum n => exact vsize_pos _
  | vStr s => exact vsize_pos _
  | vObj fs => exact vsize_pos _

theorem arrElems_jsGet_le {fs : List (String × Value)} {k : String} {row : Value}
    (h : row ∈ arrElems ((jsGet fs k).getD vNull)) : vsize row + 2 ≤ vsize (vObj fs) := by
  cases hg : jsGet fs k with
  | none => rw [hg] at h; cases h
  | some dval =>
    rw [hg] at h
    obtain ⟨k2, hmem⟩ := jsGet_some_mem hg
    have h1 := vsizeF_mem_le hmem
    simp only [Option.getD_some] at h
    cases dval with
    | vArr rows =>
      have h2 := vsizeL_mem_le (by simpa [arrElems] using h)
      rw [vsize]
      rw [vsize] at h1
      omega
    | vNull => cases h
    | vBool b => cases h
    | vNum n => cases h
    | vStr s => cases h
    | vObj gs => cases h

theorem schemaDGo_eq : ∀ fuel, ∀ v : Value, vsize v ≤ fuel →
    schemaDGo fuel v = schemaDGo (vsize v) v := by
  intro fuel
  induction fuel using Nat.strong_induction_on with
  | _ fuel ih =>
    intro v hv
    rcases Nat.lt_or_ge (vsize v) fuel with hlt | hge
    case inr => exact le_antisymm hv hge ▸ rfl
    have h1 := vsize_pos v
    obtain ⟨fuel2, rfl⟩ : ∃ f2, fuel = f2 + 1 := ⟨fuel - 1, by omega⟩
    obtain ⟨m, hm⟩ : ∃ m, vsize v = m + 1 := ⟨vsize v - 1, by omega⟩
    rw [hm] at hv
    rw [hm]
    cases v with
    | vNull => rfl
    | vBool b => rfl
    | vNum n => rfl
    | vStr s => rfl
    | vArr xs =>
      simp only [schemaDGo]
      congr 1
      refine List.map_congr_left ?_
      intro x hx
      have hs : vsize x ≤ vsizeL xs := vsizeL_mem_le hx
      rw [vsize] at hm
      rw [ih fuel2 (by omega) x (by omega), ih m (by omega) x (by omega)]
    | vObj fs =>
      simp only [schemaDGo]
      by_cases hmk : schemaMarkerCheck fs = true
      · rw [if_pos hmk, if_pos hmk]
        congr 1
        refine List.map_congr_left ?_
        intro row hrow
        have hrs := arrElems_jsGet_le hrow
        congr 1
        congr 1
        refine List.map_congr_left ?_
        intro p hp
        have hri := rowIndex_le row p.1
        rw [hm] at hrs
        congr 1
        rw [ih fuel2 (by omega) _ (by omega), ih m (by omega) _ (by omega)]
      · rw [if_neg hmk, if_neg hmk]
        congr 1
        congr 1
        refine List.map_congr_left ?_
        intro p hp
        have hs : vsize p.2 + 1 ≤ vsizeF fs := vsizeF_mem_le (by
          rw [show (p.1, p.2) = p from rfl]; exact hp)
        rw [vsize] at hm
        congr 1
        rw [ih fuel2 (by omega) _ (by omega), ih m (by omega) _ (by omega)]

theorem schemaDecompress_arr (xs : List Value) :
    schemaDecompress (vArr xs) = vArr (xs.map schemaDecompress) := by
  have h1 : vsize (vArr xs) = vsizeL xs + 1 := by rw [vsize]; omega
  rw [schemaDecompress, h1, schemaDGo]
  congr 1
  refine List.map_congr_left ?_
  intro x hx
  exact schemaDGo_eq (vsizeL xs) x (vsizeL_mem_le hx)

theorem schemaDecompress_obj_plain (fs : List (String × Value))
    (h : schemaMarkerCheck fs = false) :
    schemaDecompress (vObj fs) = vObj (buildObj (fs.map (fun p => (p.1, schemaDecompress p.2)))) := by
  have h1 : vsize (vObj fs) = vsizeF fs + 1 := by rw [vsize]; omega
  rw [schemaDecompress, h1, schemaDGo]
  simp only [h, Bool.false_eq_true, if_false]
  congr 1
  congr 1
  refine List.map_congr_left ?_
  intro p hp
  have hs : vsize p.2 + 1 ≤ vsizeF fs := vsizeF_mem_le (by
    rw [show (p.1, p.2) = p from rfl]; exact hp)
  congr 1
  exact schemaDGo_eq (vsizeF fs) p.2 (by omega)

theorem schemaDecompress_obj_marker (fs : List (String × Value))
    (h : schemaMarkerCheck fs = true) :
    schemaDecompress (vObj fs) = vArr ((arrElems ((jsGet fs ("$d")).getD vNull)).map (fun row =>
      vObj (buildObj ((arrElems ((jsGet fs ("$s")).getD vNull)).enum.map (fun p =>
        (jsKeyOf p.2, schemaDecompress (rowIndex row p.1))))))) := by
  have h1 : vsize (vObj fs) = vsizeF fs + 1 := by rw [vsize]; omega
  rw [schemaDecompress, h1, schemaDGo]
  simp only [h, if_true]
  congr 1
  refine List.map_congr_left ?_
  intro row hrow
  have hrs := arrElems_jsGet_le hrow
  rw [h1] at hrs
  congr 1
  congr 1
  refine List.map_congr_left ?_
  intro p hp
  have hri := rowIndex_le row p.1
  congr 1
  exact schemaDGo_eq (vsizeF fs) _ (by omega)

theorem map_keys_jsGet {β : Type} (H : Option Value → β) : ∀ gs : List (String × Value),
    (gs.map Prod.fst).Nodup →
    (gs.map Prod.fst).map (fun k => (k, H (jsGet gs k))) = gs.map (fun m => (m.1, H (some m.2))) := by
  intro gs
  induction gs with
  | nil => intro _; rfl
  | cons p ps ih =>
    intro hn
    obtain ⟨k0, v0⟩ := p
    simp only [List.map_cons] at hn ⊢
    rw [List.nodup_cons] at hn
    congr 1
    · congr 1
      simp [jsGet, List.find?_cons]
    · rw [show (fun k => (k, H (jsGet ((k0, v0) :: ps) k))) = fun k => (k, H (if (k0 == k) then some v0 else jsGet ps k)) from ?_]
      · rw [List.map_congr_left (fun k hk => ?_), ih hn.2]
        have hne : (k0 == k) = false := by
          rcases Bool.eq_false_or_eq_true (k0 == k) with h1 | h1
          · exact absurd (eq_of_beq h1 ▸ hk) hn.1
          · exact h1
        rw [hne]
        simp
      · funext k
        simp only [jsGet, List.find?_cons]
        by_cases hb : (k0 == k) = true
        · simp [hb]
        · simp [hb, jsGet]

theorem allMatch_elements : ∀ xs : List Value, allMatch xs = true →
    ∀ el ∈ xs, ∃ gs, el = vObj gs := by
  intro xs ham el hel
  cases xs with
  | nil => cases hel
  | cons h rest =>
    cases h with
    | vObj fs0 =>
      rw [allMatch] at ham
      rcases List.mem_cons.mp hel with h1 | h1
      · exact ⟨fs0, h1⟩
      · have h2 := (List.all_eq_true.mp ham) el h1
        cases el with
        | vObj gs => exact ⟨gs, rfl⟩
        | vNull => cases h2
        | vBool b => cases h2
        | vNum n => cases h2
        | vStr s2 => cases h2
        | vArr ys => cases h2
    | vNull => rw [show allMatch (vNull :: rest) = false from rfl] at ham; cases ham
    | vBool b => rw [show allMatch (vBool b :: rest) = false from rfl] at ham; cases ham
    | vNum n => rw [show allMatch (vNum n :: rest) = false from rfl] at ham; cases ham
    | vStr s2 => rw [show allMatch (vStr s2 :: rest) = false from rfl] at ham; cases ham
    | vArr ys => rw [show allMatch (vArr ys :: rest) = false from rfl] at ham; cases ham

theorem schemaSafeB_sub {v w : Value} (h : schemaSafeB v = true)
    (hsub : ∀ o ∈ subtreesV w, o ∈ subtreesV v) : schemaSafeB w = true := by
  rw [schemaSafeB, List.all_eq_true]
  rw [schemaSafeB, List.all_eq_true] at h
  exact fun o ho => h o (hsub o ho)

theorem subtrees_child_arr {x : Value} {xs : List Value} (hx : x ∈ xs) :
    ∀ o ∈ subtreesV x, o ∈ subtreesV (vArr xs) := by
  intro o ho
  rw [subtreesV, List.mem_cons]
  exact Or.inr (subtreesL_mem_sub hx ho)

theorem subtrees_child_obj {k : String} {w : Value} {fs : List (String × Value)}
    (hm : (k, w) ∈ fs) : ∀ o ∈ subtreesV w, o ∈ subtreesV (vObj fs) := by
  intro o ho
  rw [subtreesV, List.mem_cons]
  exact Or.inr (subtreesF_mem_sub hm ho)

theorem schemaSafe_self_obj {fs : List (String × Value)} (h : schemaSafeB (vObj fs) = true) :
    (!((jsGet fs ("$s")).isSome && (jsGet fs ("$d")).isSome)) = true := by
  rw [schemaSafeB, List.all_eq_true] at h
  exact h (vObj fs) (by rw [subtreesV]; exact List.mem_cons_self _ _)

theorem schemaSafe_self_arr {xs : List Value} (h : schemaSafeB (vArr xs) = true) :
    (!(allMatch xs) || xs.all (fun el => keysOfJs el == headKeys xs)) = true := by
  rw [schemaSafeB, List.all_eq_true] at h
  exact h (vArr xs) (by rw [subtreesV]; exact List.mem_cons_self _ _)

theorem markerCheck_false_of_not_both {fs : List (String × Value)}
    (h : ¬((jsGet fs ("$s")).isSome = true ∧ (jsGet fs ("$d")).isSome = true)) :
    schemaMarkerCheck fs = false := by
  rw [schemaMarkerCheck]
  cases hs : jsGet fs ("$s") with
  | none => rfl
  | some sv =>
    cases hd : jsGet fs ("$d") with
    | none => simp
    | some dv => exact absurd ⟨by rw [hs]; rfl, by rw [hd]; rfl⟩ h

theorem schemaCompressF_map_fst (fs : List (String × Value)) :
    (schemaCompressF fs).map Prod.fst = fs.map Prod.fst := by
  rw [schemaCompressF_eq_map, List.map_map]
  rfl

theorem rebuild_pairs (f : String → Value) (D : Value → Value) (ks : List String) :
    ((ks.map vStr).enum).map (fun p => (jsKeyOf p.2, D (rowIndex (vArr (ks.map f)) p.1)))
      = ks.map (fun k => (k, D (f k))) := by
  refine List.ext_get? ?_
  intro j
  rw [List.get?_map, List.get?_map]
  cases hg : ks.get? j with
  | none =>
    have h1 : (ks.map vStr).enum.get? j = none := by
      rw [List.get?_eq_none]
      rw [List.get?_eq_none] at hg
      simpa using hg
    rw [h1]
    rfl
  | some k =>
    have h1 : (ks.map vStr).enum.get? j = some (j, vStr k) := by
      rw [List.get?_enum, List.get?_map, hg]
      rfl
    rw [h1]
    simp only [Option.map_some']
    rw [rowIndex, List.get?_map, hg]
    rfl

theorem schema_rt_n : ∀ n, ∀ v : Value, vsize v ≤ n → wfV v = true → schemaSafeB v = true →
    schemaDecompress (schemaCompress v) = v := by
  intro n
  induction n using Nat.strong_induction_on with
  | _ n ih =>
    intro v hn hw hs
    cases v with
    | vNull => rfl
    | vBool b => rfl
    | vNum nn => rfl
    | vStr s => rfl
    | vArr xs =>
      have hsz : vsize (vArr xs) = 1 + vsizeL xs := by rw [vsize]
      by_cases ham : allMatch xs = true
      case neg =>
        rw [schemaCompress, if_neg ham, schemaCompressL_eq_map, schemaDecompress_arr,
          List.map_map]
        congr 1
        have hid : ∀ x ∈ xs, (schemaDecompress ∘ schemaCompress) x = x := by
          intro x hx
          have h1 : vsize x ≤ vsizeL xs := vsizeL_mem_le hx
          exact ih (vsize x) (by omega) x (le_refl _) (wfL_mem (by simpa [wfV] using hw) hx)
            (schemaSafeB_sub hs (subtrees_child_arr hx))
        rw [List.map_congr_left hid]
        exact List.map_id xs
      case pos =>
        rw [schemaCompress, if_pos ham]
        have hmk : schemaMarkerCheck
            [("$s", vArr ((headKeys xs).map vStr)),
             ("$d", vArr (schemaRows (headKeys xs) (schemaCompressL xs)))] = true := by
          simp [schemaMarkerCheck, jsGet, List.find?_cons, truthy, isArr]
        rw [schemaDecompress_obj_marker _ hmk]
        have hgs : jsGet [("$s", vArr ((headKeys xs).map vStr)),
             ("$d", vArr (schemaRows (headKeys xs) (schemaCompressL xs)))] ("$s")
            = some (vArr ((headKeys xs).map vStr)) := by
          simp [jsGet, List.find?_cons]
        have hgd : jsGet [("$s", vArr ((headKeys xs).map vStr)),
             ("$d", vArr (schemaRows (headKeys xs) (schemaCompressL xs)))] ("$d")
            = some (vArr (schemaRows (headKeys xs) (schemaCompressL xs))) := by
          simp [jsGet, List.find?_cons]
        rw [hgs, hgd]
        simp only [Option.getD_some, arrElems]
        rw [schemaRows, schemaCompressL_eq_map, List.map_map, List.map_map]
        -- goal: vArr (xs.map (rebuild ∘ row-of ∘ compress)) = vArr xs
        congr 1
        have hall := schemaSafe_self_arr hs
        rw [ham, Bool.not_true, Bool.false_or, List.all_eq_true] at hall
        have hid : ∀ x ∈ xs,
            (((fun row => vObj (buildObj ((((headKeys xs).map vStr).enum).map (fun p =>
                (jsKeyOf p.2, schemaDecompress (rowIndex row p.1)))))) ∘
              (fun el => vArr ((headKeys xs).map (fun k => elGet el k)))) ∘ schemaCompress) x
              = x := by
          intro x hx
          obtain ⟨gs, rfl⟩ := allMatch_elements xs ham x hx
          have hks : (gs.map Prod.fst) = headKeys xs := by
            have := hall (vObj gs) hx
            rw [keysOfJs] at this
            exact eq_of_beq this
          have hwgs : wfV (vObj gs) = true := wfL_mem (by simpa [wfV] using hw) hx
          have hnod : (gs.map Prod.fst).Nodup := by
            rw [wfV, Bool.and_eq_true, decide_eq_true_eq] at hwgs
            exact hwgs.1
          simp only [Function.comp]
          rw [schemaCompress,
            buildObj_eq_self (schemaCompressF gs) (by rw [schemaCompressF_map_fst]; exact hnod)]
          have helget : (fun k => elGet (vObj (schemaCompressF gs)) k)
              = fun k => ((jsGet gs k).map schemaCompress).getD vNull := by
            funext k
            rw [elGet, schemaCompressF_eq_map, jsGet_map_value]
          rw [helget, rebuild_pairs (fun k => ((jsGet gs k).map schemaCompress).getD vNull)
            schemaDecompress (headKeys xs), ← hks,
            map_keys_jsGet (fun o => schemaDecompress ((o.map schemaCompress).getD vNull)) gs hnod]
          simp only [Option.map_some', Option.getD_some]
          have hmem : ∀ m ∈ gs, (fun m => (m.1, schemaDecompress (schemaCompress m.2))) m
              = (fun m => m) m := by
            intro m hm
            simp only
            congr 1
            have h1 : vsize m.2 + 1 ≤ vsizeF gs := vsizeF_mem_le (by
              rw [show (m.1, m.2) = m from rfl]; exact hm)
            have h2 : vsize (vObj gs) ≤ vsizeL xs := vsizeL_mem_le hx
            rw [vsize] at h2
            refine ih (vsize m.2) (by omega) m.2 (le_refl _) ?_ ?_
            · rw [wfV, Bool.and_eq_true] at hwgs
              exact wfF_mem hwgs.2 (by rw [show (m.1, m.2) = m from rfl]; exact hm)
            · refine schemaSafeB_sub hs ?_
              intro o ho
              exact subtrees_child_arr hx o
                (subtrees_child_obj (by rw [show (m.1, m.2) = m from rfl]; exact hm) o ho)
          rw [List.map_congr_left hmem]
          rw [show (gs.map fun m => m) = gs from List.map_id gs, buildObj_eq_self gs hnod]
        rw [List.map_congr_left hid]
        exact List.map_id xs
    | vObj fs =>
      have hw2 : ((fs.map Prod.fst).Nodup) ∧ wfF fs = true := by
        rw [wfV, Bool.and_eq_true, decide_eq_true_eq] at hw; exact hw
      rw [schemaCompress, buildObj_eq_self _ (by rw [schemaCompressF_map_fst]; exact hw2.1)]
      have hnb := schemaSafe_self_obj hs
      rw [Bool.not_eq_true', Bool.and_eq_false_iff] at hnb
      have hmk : schemaMarkerCheck (schemaCompressF fs) = false := by
        refine markerCheck_false_of_not_both ?_
        rw [schemaCompressF_eq_map, jsGet_map_value, jsGet_map_value]
        intro hcon
        rcases hnb with h1 | h1
        · cases hg : jsGet fs ("$s") with
          | some sv => rw [hg] at h1; simp at h1
          | none => rw [hg] at hcon; simp at hcon
        · cases hg : jsGet fs ("$d") with
          | some dv => rw [hg] at h1; simp at h1
          | none => rw [hg] at hcon; simp at hcon
      rw [schemaDecompress_obj_plain _ hmk, schemaCompressF_eq_map, List.map_map]
      have hid : ∀ m ∈ fs,
          ((fun p => (p.1, schemaDecompress p.2)) ∘ fun p => (p.1, schemaCompress p.2)) m
            = (fun m => m) m := by
        intro m hm
        simp only [Function.comp]
        congr 1
        have h1 : vsize m.2 + 1 ≤ vsizeF fs := vsizeF_mem_le (by
          rw [show (m.1, m.2) = m from rfl]; exact hm)
        have h2 : vsize (vObj fs) = 1 + vsizeF fs := by rw [vsize]
        refine ih (vsize m.2) (by omega) m.2 (le_refl _)
          (wfF_mem hw2.2 (by rw [show (m.1, m.2) = m from rfl]; exact hm)) ?_
        exact schemaSafeB_sub hs
          (subtrees_child_obj (by rw [show (m.1, m.2) = m from rfl]; exact hm))
      rw [List.map_congr_left hid]
      rw [show (fs.map fun m => m) = fs from List.map_id fs, buildObj_eq_self fs hw2.1]

theorem schema_roundtrip (v : Value) (hw : wfV v = true) (hs : schemaSafeB v = true) :
    schemaDecompress (schemaCompress v) = v :=
  schema_rt_n (vsize v) v (le_refl _) hw hs

/-- Clean recursive decimal digit list of a natural number. -/
def digitsOf (n : Nat) : List Char :=
  if h : n < 10 then [Nat.digitChar n]
  else digitsOf (n / 10) ++ [Nat.digitChar (n % 10)]
  decreasing_by
    have h10 : 10 ≤ n := Nat.le_of_not_lt h
    exact Nat.div_lt_self (by omega) (by omega)

/-- Numeric value of a decimal digit character. -/
def digitVal (c : Char) : Nat := c.toNat - 48

/-- Parse a digit list most-significant-first with an accumulator. -/
def parseAcc (acc : Nat) : List Char → Nat
  | [] => acc
  | c :: cs => parseAcc (acc * 10 + digitVal c) cs

theorem parseAcc_append (l1 l2 : List Char) : ∀ acc,
    parseAcc acc (l1 ++ l2) = parseAcc (parseAcc acc l1) l2 := by
  induction l1 with
  | nil => intro acc; rfl
  | cons c cs ih =>
    intro acc
    rw [List.cons_append]
    exact ih (acc * 10 + digitVal c)

theorem digitVal_digitChar {n : Nat} (h : n < 10) : digitVal (Nat.digitChar n) = n := by
  interval_cases n <;> rfl

theorem parseAcc_digitsOf : ∀ n acc, parseAcc acc (digitsOf n)
    = acc * 10 ^ (digitsOf n).length + n := by
  intro n
  induction n using Nat.strong_induction_on with
  | _ n ih =>
    intro acc
    by_cases h : n < 10
    · rw [digitsOf, dif_pos h]
      rw [show parseAcc acc [Nat.digitChar n] = acc * 10 + digitVal (Nat.digitChar n) from rfl]
      rw [digitVal_digitChar h]
      simp
    · rw [digitsOf, dif_neg h]
      have h10 : 10 ≤ n := Nat.le_of_not_lt h
      have hlt : n / 10 < n := Nat.div_lt_self (by omega) (by omega)
      rw [parseAcc_append, ih (n / 10) hlt acc]
      rw [show ∀ m, parseAcc m [Nat.digitChar (n % 10)] = m * 10 + digitVal (Nat.digitChar (n % 10)) from fun m => rfl]
      rw [digitVal_digitChar (Nat.mod_lt n (by omega))]
      rw [List.length_append, List.length_singleton, pow_succ]
      have := Nat.div_add_mod n 10
      ring_nf
      omega

theorem digitsOf_inj {a b : Nat} (h : digitsOf a = digitsOf b) : a = b := by
  have ha := parseAcc_digitsOf a 0
  have hb := parseAcc_digitsOf b 0
  rw [h] at ha
  rw [ha] at hb
  omega

theorem toDigitsCore_eq_digitsOf : ∀ fuel n ds, n < fuel →
    Nat.toDigitsCore 10 fuel n ds = digitsOf n ++ ds := by
  intro fuel
  induction fuel with
  | zero => intro n ds h; omega
  | succ fuel ih =>
    intro n ds h
    rw [Nat.toDigitsCore]
    by_cases hz : n / 10 = 0
    · have hn : n < 10 := by omega
      simp only [hz, if_pos]
      rw [digitsOf, dif_pos hn, Nat.mod_eq_of_lt hn]
      rfl
    · rw [if_neg hz]
      have hn : ¬ n < 10 := by
        intro hc
        exact hz (Nat.div_eq_of_lt hc)
      have hlt : n / 10 < fuel := by
        have : n / 10 < n := Nat.div_lt_self (by omega) (by omega)
        omega
      rw [ih (n / 10) _ hlt]
      conv_rhs => rw [digitsOf, dif_neg hn]
      simp

theorem natRepr_inj {a b : Nat} (h : Nat.repr a = Nat.repr b) : a = b := by
  rw [Nat.repr, Nat.repr, Nat.toDigits, Nat.toDigits] at h
  rw [toDigitsCore_eq_digitsOf (a + 1) a [] (by omega),
    toDigitsCore_eq_digitsOf (b + 1) b [] (by omega)] at h
  simp only [List.append_nil] at h
  have h2 : digitsOf a = digitsOf b := by
    have := congrArg String.data h
    simpa [List.asString] using this
  exact digitsOf_inj h2

theorem natToString_inj {a b : Nat} (h : toString a = toString b) : a = b := natRepr_inj h

theorem vsizeL_append : ∀ a b : List Value, vsizeL (a ++ b) = vsizeL a + vsizeL b := by
  intro a b
  induction a with
  | nil => simp [vsizeL]
  | cons x xs ih => rw [List.cons_append, vsizeL, vsizeL, ih]; omega

theorem vsizeL_reverse : ∀ a : List Value, vsizeL a.reverse = vsizeL a := by
  intro a
  induction a with
  | nil => rfl
  | cons x xs ih => rw [List.reverse_cons, vsizeL_append, vsizeL, vsizeL, ih, vsizeL]; omega

theorem vsizeL_childVals {v : Value} (hc : isComposite v = true) :
    vsizeL (childVals v) < vsize v := by
  cases v with
  | vArr xs => rw [childVals, vsize]; omega
  | vObj fs =>
    rw [childVals, vsize]
    have : ∀ gs : List (String × Value), vsizeL (gs.map Prod.snd) ≤ vsizeF gs := by
      intro gs
      induction gs with
      | nil => simp [vsizeL, vsizeF]
      | cons p ps ih =>
        obtain ⟨k, w⟩ := p
        rw [List.map_cons, vsizeL, vsizeF]
        simp only
        omega
    have := this fs
    omega
  | vNull => cases hc
  | vBool b => cases hc
  | vNum n => cases hc
  | vStr s => cases hc

theorem stackMeasure_append (a b : List Value) :
    stackMeasure (a ++ b) = stackMeasure a + stackMeasure b := vsizeL_append a b

theorem compositeSeqGo_eq : ∀ fuel st, stackMeasure st ≤ fuel →
    compositeSeqGo fuel st = compositeSeqS st := by
  intro fuel
  induction fuel using Nat.strong_induction_on with
  | _ fuel ih =>
    intro st hst
    rcases Nat.lt_or_ge (stackMeasure st) fuel with hlt | hge
    case inr => exact le_antisymm hst hge ▸ rfl
    cases st with
    | nil =>
      rw [compositeSeqS]
      cases fuel <;> rfl
    | cons v rest =>
      have h1 := vsize_pos v
      have hm : stackMeasure (v :: rest) = vsize v + stackMeasure rest := by
        rw [stackMeasure, vsizeL]; rfl
      obtain ⟨f2, rfl⟩ : ∃ f2, fuel = f2 + 1 := ⟨fuel - 1, by omega⟩
      obtain ⟨m, hm2⟩ : ∃ m, stackMeasure (v :: rest) = m + 1 := ⟨stackMeasure (v :: rest) - 1, by omega⟩
      rw [compositeSeqS, hm2, compositeSeqGo, compositeSeqGo]
      by_cases hc : isComposite v = true
      · rw [if_pos hc, if_pos hc]
        have hch := vsizeL_childVals hc
        have hms : stackMeasure ((childVals v).reverse ++ rest) ≤ m := by
          rw [stackMeasure_append]
          rw [show stackMeasure (childVals v).reverse = vsizeL (childVals v).reverse from rfl,
            vsizeL_reverse]
          omega
        rw [ih f2 (by omega) ((childVals v).reverse ++ rest) (by omega),
          ih m (by omega) ((childVals v).reverse ++ rest) hms]
      · rw [if_neg hc, if_neg hc]
        have hp1 : vsize v = 1 := by
          cases v with
          | vNull => rfl
          | vBool b => rfl
          | vNum n => rfl
          | vStr s => rfl
          | vArr xs => exact absurd rfl hc
          | vObj fs => exact absurd rfl hc
        rw [ih f2 (by omega) rest (by omega), ih m (by omega) rest (by omega)]

theorem compositeSeqS_nil : compositeSeqS [] = [] := rfl

theorem compositeSeqS_cons_comp {v : Value} (rest : List Value) (hc : isComposite v = true) :
    compositeSeqS (v :: rest) = v :: compositeSeqS ((childVals v).reverse ++ rest) := by
  have h1 := vsize_pos v
  have hm : stackMeasure (v :: rest) = vsize v + stackMeasure rest := rfl
  obtain ⟨m, hm2⟩ : ∃ m, stackMeasure (v :: rest) = m + 1 := ⟨stackMeasure (v :: rest) - 1, by omega⟩
  rw [compositeSeqS, hm2, compositeSeqGo, if_pos hc]
  congr 1
  refine compositeSeqGo_eq m ((childVals v).reverse ++ rest) ?_
  have hch := vsizeL_childVals hc
  rw [stackMeasure_append,
    show stackMeasure (childVals v).reverse = vsizeL (childVals v).reverse from rfl,
    vsizeL_reverse]
  omega

theorem compositeSeqS_cons_prim {v : Value} (rest : List Value) (hc : ¬ isComposite v = true) :
    compositeSeqS (v :: rest) = compositeSeqS rest := by
  have h1 := vsize_pos v
  have hm : stackMeasure (v :: rest) = vsize v + stackMeasure rest := rfl
  obtain ⟨m, hm2⟩ : ∃ m, stackMeasure (v :: rest) = m + 1 := ⟨stackMeasure (v :: rest) - 1, by omega⟩
  rw [compositeSeqS, hm2, compositeSeqGo, if_neg hc]
  exact compositeSeqGo_eq m rest (by omega)

theorem compositeSeqS_append : ∀ a b, compositeSeqS (a ++ b)
    = compositeSeqS a ++ compositeSeqS b := by
  have main : ∀ n a b, stackMeasure a ≤ n →
      compositeSeqS (a ++ b) = compositeSeqS a ++ compositeSeqS b := by
    intro n
    induction n using Nat.strong_induction_on with
    | _ n ih =>
      intro a b ha
      cases a with
      | nil => simp [compositeSeqS_nil]
      | cons v rest =>
        have h1 := vsize_pos v
        have hm : stackMeasure (v :: rest) = vsize v + stackMeasure rest := rfl
        by_cases hc : isComposite v = true
        · rw [List.cons_append, compositeSeqS_cons_comp _ hc, compositeSeqS_cons_comp _ hc,
            ← List.append_assoc]
          have hch := vsizeL_childVals hc
          have hms : stackMeasure ((childVals v).reverse ++ rest) < stackMeasure (v :: rest) := by
            rw [stackMeasure_append,
              show stackMeasure (childVals v).reverse = vsizeL (childVals v).reverse from rfl,
              vsizeL_reverse]
            omega
          rw [ih (stackMeasure ((childVals v).reverse ++ rest)) (by omega) _ b (le_refl _)]
          simp
        · rw [List.cons_append, compositeSeqS_cons_prim _ hc, compositeSeqS_cons_prim _ hc]
          exact ih (stackMeasure rest) (by omega) rest b (le_refl _)
  exact fun a b => main (stackMeasure a) a b (le_refl _)

theorem compositeSeqS_reverse : ∀ a : List Value,
    List.Perm (compositeSeqS a.reverse) (compositeSeqS a) := by
  intro a
  induction a with
  | nil => exact List.Perm.refl _
  | cons x xs ih =>
    rw [List.reverse_cons, compositeSeqS_append]
    refine List.Perm.trans (List.Perm.append_right _ ih) ?_
    refine List.Perm.trans List.perm_append_comm ?_
    rw [← compositeSeqS_append]
    exact List.Perm.refl _

theorem subtreesL_map_snd : ∀ fs : List (String × Value),
    subtreesL (fs.map Prod.snd) = subtreesF fs := by
  intro fs
  induction fs with
  | nil => rfl
  | cons p ps ih => obtain ⟨k, w⟩ := p; rw [List.map_cons, subtreesL, subtreesF, ih]

theorem compositeSeqS_perm_subtreesL : ∀ n, ∀ st : List Value, stackMeasure st ≤ n →
    List.Perm (compositeSeqS st) (subtreesL st) := by
  intro n
  induction n using Nat.strong_induction_on with
  | _ n ih =>
    intro st hst
    cases st with
    | nil => exact List.Perm.refl _
    | cons v rest =>
      have h1 := vsize_pos v
      have hm : stackMeasure (v :: rest) = vsize v + stackMeasure rest := rfl
      by_cases hc : isComposite v = true
      · rw [compositeSeqS_cons_comp _ hc, compositeSeqS_append, subtreesL]
        have hch := vsizeL_childVals hc
        have hcm : stackMeasure (childVals v).reverse = vsizeL (childVals v) := vsizeL_reverse _
        have hp1 : List.Perm (compositeSeqS (childVals v).reverse) (subtreesL (childVals v)) := by
          refine List.Perm.trans (compositeSeqS_reverse (childVals v)) ?_
          exact ih (stackMeasure (childVals v)) (by
            rw [show stackMeasure (childVals v) = vsizeL (childVals v) from rfl]; omega) _ (le_refl _)
        have hp2 : List.Perm (compositeSeqS rest) (subtreesL rest) :=
          ih (stackMeasure rest) (by omega) rest (le_refl _)
        have hsub : subtreesV v = v :: subtreesL (childVals v) := by
          cases v with
          | vArr xs => rw [subtreesV, childVals]
          | vObj fs => rw [subtreesV, childVals, subtreesL_map_snd]
          | vNull => cases hc
          | vBool b => cases hc
          | vNum num => cases hc
          | vStr s2 => cases hc
        rw [hsub]
        exact List.Perm.cons v (List.Perm.append hp1 hp2)
      · rw [compositeSeqS_cons_prim _ hc, subtreesL]
        have hsub : subtreesV v = [] := by
          cases v with
          | vNull => rfl
          | vBool b => rfl
          | vNum num => rfl
          | vStr s2 => rfl
          | vArr xs => exact absurd rfl hc
          | vObj fs => exact absurd rfl hc
        rw [hsub, List.nil_append]
        exact ih (stackMeasure rest) (by omega) rest (le_refl _)

theorem compositeSeq_perm_subtrees (v : Value) :
    List.Perm (compositeSeq v) (subtreesV v) := by
  have h1 : compositeSeq v = compositeSeqS [v] := rfl
  have h2 : subtreesL [v] = subtreesV v ++ [] := rfl
  have h3 := compositeSeqS_perm_subtreesL (stackMeasure [v]) [v] (le_refl _)
  rw [h1]
  refine List.Perm.trans h3 ?_
  rw [h2, List.append_nil]

theorem compositeSeq_mem_subtrees {v s : Value} (h : s ∈ compositeSeq v) : s ∈ subtreesV v :=
  (compositeSeq_perm_subtrees v).mem_iff.mp h

theorem dtransF_eq_map (cands : List (String × String)) : ∀ fs : List (String × Value),
    dtransF cands fs = fs.map (fun p => (p.1, dtransV cands p.2)) := by
  intro fs
  induction fs with
  | nil => rfl
  | cons p ps ih => obtain ⟨k, w⟩ := p; rw [dtransF, ih]; rfl

theorem dtransL_eq_map (cands : List (String × String)) : ∀ xs : List Value,
    dtransL cands xs = xs.map (dtransV cands) := by
  intro xs
  induction xs with
  | nil => rfl
  | cons x xs ih => rw [dtransL, ih]; rfl

theorem jsGet_of_nodup {reg : List (String × Value)} (hn : (reg.map Prod.fst).Nodup)
    {id : String} {w : Value} (hm : (id, w) ∈ reg) : jsGet reg id = some w := by
  induction reg with
  | nil => cases hm
  | cons p ps ih =>
    obtain ⟨k0, w0⟩ := p
    simp only [List.map_cons, List.nodup_cons] at hn
    rcases List.mem_cons.mp hm with h1 | h1
    · obtain ⟨rfl, rfl⟩ := Prod.mk.injEq .. ▸ h1
      · simp [jsGet, List.find?_cons]
    · have hne : (k0 == id) = false := by
        rcases Bool.eq_false_or_eq_true (k0 == id) with h2 | h2
        · exact absurd (eq_of_beq h2 ▸ List.mem_map_of_mem Prod.fst h1) (by
            simpa using hn.1)
        · exact h2
      simp only [jsGet, List.find?_cons, hne]
      exact ih hn.2 h1

theorem firstDedupAux_subset : ∀ (l acc : List String) (k : String),
    k ∈ firstDedupAux l acc → k ∈ acc ∨ k ∈ l := by
  intro l
  induction l with
  | nil => intro acc k h; rw [firstDedupAux] at h; exact Or.inl h
  | cons x xs ih =>
    intro acc k h
    rw [firstDedupAux] at h
    by_cases hc : acc.contains x
    · rw [if_pos hc] at h
      rcases ih acc k h with h1 | h1
      · exact Or.inl h1
      · exact Or.inr (List.mem_cons_of_mem x h1)
    · rw [if_neg hc] at h
      rcases ih (acc ++ [x]) k h with h1 | h1
      · rcases List.mem_append.mp h1 with h2 | h2
        · exact Or.inl h2
        · exact Or.inr (by simp at h2; simp [h2])
      · exact Or.inr (List.mem_cons_of_mem x h1)

theorem firstDedup_subset {l : List String} {k : String} (h : k ∈ firstDedup l) : k ∈ l := by
  rcases firstDedupAux_subset l [] k h with h1 | h1
  · cases h1
  · exact h1

theorem rid_inj : ∀ i j : Nat, ("r" ++ toString (i + 1) : String) = "r" ++ toString (j + 1) → i = j := by
  intro i j h
  have h2 : ("r" ++ toString (i + 1) : String).data = ("r" ++ toString (j + 1) : String).data := by
    rw [h]
  rw [String.data_append, String.data_append] at h2
  have h3 : (toString (i + 1) : String).data = (toString (j + 1) : String).data := by
    simpa using h2
  have h4 : (toString (i + 1) : String) = toString (j + 1) := by
    cases hti : (toString (i + 1) : String) with
    | mk d1 =>
      cases htj : (toString (j + 1) : String) with
      | mk d2 =>
        rw [hti, htj] at h3
        simp only at h3
        rw [h3]
  have := natToString_inj h4
  omega

theorem candIds_nodup (minSize : Nat) (v : Value) :
    ((dedupCandidates minSize v).map Prod.snd).Nodup := by
  rw [dedupCandidates, List.map_map]
  have h1 : (Prod.snd ∘ fun p : Nat × String => (p.2, "r" ++ toString (p.1 + 1)))
      = (fun i : Nat => "r" ++ toString (i + 1)) ∘ Prod.fst := rfl
  rw [h1, ← List.map_map, List.enum_map_fst]
  refine List.Nodup.map ?_ (List.nodup_range _)
  intro i j hij
  exact rid_inj i j hij

theorem cands_mem_shape {minSize : Nat} {v : Value} {p : String × String}
    (h : p ∈ dedupCandidates minSize v) :
    (∃ i, p.2 = "r" ++ toString (i + 1)) ∧ p.1 ∈ canonSeq v := by
  rw [dedupCandidates] at h
  obtain ⟨q, hq, he⟩ := List.mem_map.mp h
  constructor
  · exact ⟨q.1, by rw [← he]⟩
  · have h1 : q.2 ∈ (firstDedup (canonSeq v)).filter (fun c =>
        decide ((canonSeq v).count c > 1) && decide (utf8Len c ≥ minSize)) := by
      have h0 := List.mem_enum_iff_getElem?.mp (by exact hq)
      refine List.get?_mem (n := q.1) ?_
      rw [List.get?_eq_getElem?]
      exact h0
    have h2 := List.mem_of_mem_filter h1
    have h3 := firstDedup_subset h2
    rw [← he]
    exact h3

theorem cand_id_ne_empty {minSize : Nat} {v : Value} {p : String × String}
    (h : p ∈ dedupCandidates minSize v) : p.2 ≠ "" := by
  obtain ⟨⟨i, hi⟩, _⟩ := cands_mem_shape h
  rw [hi]
  intro hc
  have := congrArg String.data hc
  rw [String.data_append] at this
  simp at this


theorem subtrees_child_arr_mem {xs : List Value} {o : Value} (h : o ∈ subtreesL xs) :
    o ∈ subtreesV (vArr xs) := by
  rw [subtreesV, List.mem_cons]
  exact Or.inr h

theorem subtrees_child_obj_mem {fs : List (String × Value)} {o : Value} (h : o ∈ subtreesF fs) :
    o ∈ subtreesV (vObj fs) := by
  rw [subtreesV, List.mem_cons]
  exact Or.inr h

mutual
theorem dedup_rec_rt (cands : List (String × String)) (reg : List (String × Value)) :
    ∀ s, wfV s = true →
    (∀ s2 ∈ subtreesV s, ∀ id, candLookup cands (canonV s2) = some id → jsGet reg id = some s2) →
    (∀ o ∈ subtreesV s,
      (match o with | vObj fs => (jsGet fs ("$ref")).isNone | _ => true) = true) →
    (∀ p ∈ cands, p.2 ≠ "") →
    reconstructV reg (dtransV cands s) = .ok s
  | vNull, _, _, _, _ => rfl
  | vBool b, _, _, _, _ => rfl
  | vNum n, _, _, _, _ => rfl
  | vStr s, _, _, _, _ => rfl
  | vArr xs, hw, hp, hq, hne => by
    rw [dtransV]
    cases hcl : candLookup cands (canonV (vArr xs)) with
    | some id =>
      have hje := hp (vArr xs) (by rw [subtreesV]; exact List.mem_cons_self _ _) id hcl
      have hneid : id ≠ "" := by
        rw [candLookup] at hcl
        obtain ⟨pr, hfind, hpr⟩ := Option.map_eq_some'.mp hcl
        exact hpr ▸ hne pr (List.mem_of_find?_eq_some hfind)
      rw [reconstructV]
      rw [show refCheck [("$ref", vStr id)] = some id from by
        rw [refCheck]
        simp [jsGet, List.find?_cons]
        intro hc
        exact absurd hc hneid]
      simp only [hje]
      rfl
    | none =>
      rw [reconstructV, dedup_recL_rt cands reg xs (by simpa [wfV] using hw)
        (fun s2 hs2 => hp s2 (subtrees_child_arr_mem hs2))
        (fun o ho => hq o (subtrees_child_arr_mem ho)) hne]
      rfl
  | vObj fs, hw, hp, hq, hne => by
    rw [dtransV]
    cases hcl : candLookup cands (canonV (vObj fs)) with
    | some id =>
      have hje := hp (vObj fs) (by rw [subtreesV]; exact List.mem_cons_self _ _) id hcl
      have hneid : id ≠ "" := by
        rw [candLookup] at hcl
        obtain ⟨pr, hfind, hpr⟩ := Option.map_eq_some'.mp hcl
        exact hpr ▸ hne pr (List.mem_of_find?_eq_some hfind)
      rw [reconstructV]
      rw [show refCheck [("$ref", vStr id)] = some id from by
        rw [refCheck]
        simp [jsGet, List.find?_cons]
        intro hc
        exact absurd hc hneid]
      simp only [hje]
      rfl
    | none =>
      have hw2 : ((fs.map Prod.fst).Nodup) ∧ wfF fs = true := by
        rw [wfV, Bool.and_eq_true, decide_eq_true_eq] at hw; exact hw
      have hkeys : (dtransF cands fs).map Prod.fst = fs.map Prod.fst := by
        rw [dtransF_eq_map, List.map_map]; rfl
      rw [buildObj_eq_self (dtransF cands fs) (by rw [hkeys]; exact hw2.1)]
      rw [reconstructV]
      have hrc : refCheck (dtransF cands fs) = none := by
        have hqs : (jsGet fs ("$ref")).isNone = true :=
          hq (vObj fs) (by rw [subtreesV]; exact List.mem_cons_self _ _)
        rw [refCheck, dtransF_eq_map, jsGet_map_value]
        cases hg : jsGet fs ("$ref") with
        | some w => rw [hg] at hqs; simp at hqs
        | none => rfl
      rw [hrc]
      rw [dedup_recF_rt cands reg fs hw2.2
        (fun s2 hs2 => hp s2 (subtrees_child_obj_mem hs2))
        (fun o ho => hq o (subtrees_child_obj_mem ho)) hne]
      rw [show Except.map (fun l => vObj (buildObj l)) (Except.ok fs)
          = Except.ok (vObj (buildObj fs)) from rfl,
        buildObj_eq_self fs hw2.1]
theorem dedup_recL_rt (cands : List (String × String)) (reg : List (String × Value)) :
    ∀ xs, wfL xs = true →
    (∀ s2 ∈ subtreesL xs, ∀ id, candLookup cands (canonV s2) = some id → jsGet reg id = some s2) →
    (∀ o ∈ subtreesL xs,
      (match o with | vObj fs => (jsGet fs ("$ref")).isNone | _ => true) = true) →
    (∀ p ∈ cands, p.2 ≠ "") →
    reconstructL reg (dtransL cands xs) = .ok xs
  | [], _, _, _, _ => rfl
  | x :: xs, hw, hp, hq, hne => by
    rw [wfL, Bool.and_eq_true] at hw
    rw [dtransL, reconstructL]
    rw [dedup_rec_rt cands reg x hw.1
      (fun s2 hs2 => hp s2 (by rw [subtreesL, List.mem_append]; exact Or.inl hs2))
      (fun o ho => hq o (by rw [subtreesL, List.mem_append]; exact Or.inl ho)) hne]
    rw [dedup_recL_rt cands reg xs hw.2
      (fun s2 hs2 => hp s2 (by rw [subtreesL, List.mem_append]; exact Or.inr hs2))
      (fun o ho => hq o (by rw [subtreesL, List.mem_append]; exact Or.inr ho)) hne]
    rfl
theorem dedup_recF_rt (cands : List (String × String)) (reg : List (String × Value)) :
    ∀ fs, wfF fs = true →
    (∀ s2 ∈ subtreesF fs, ∀ id, candLookup cands (canonV s2) = some id → jsGet reg id = some s2) →
    (∀ o ∈ subtreesF fs,
      (match o with | vObj gs => (jsGet gs ("$ref")).isNone | _ => true) = true) →
    (∀ p ∈ cands, p.2 ≠ "") →
    reconstructF reg (dtransF cands fs) = .ok fs
  | [], _, _, _, _ => rfl
  | (k, w) :: fs, hw, hp, hq, hne => by
    rw [wfF, Bool.and_eq_true] at hw
    rw [dtransF, reconstructF]
    rw [dedup_rec_rt cands reg w hw.1
      (fun s2 hs2 => hp s2 (by rw [subtreesF, List.mem_append]; exact Or.inl hs2))
      (fun o ho => hq o (by rw [subtreesF, List.mem_append]; exact Or.inl ho)) hne]
    rw [dedup_recF_rt cands reg fs hw.2
      (fun s2 hs2 => hp s2 (by rw [subtreesF, List.mem_append]; exact Or.inr hs2))
      (fun o ho => hq o (by rw [subtreesF, List.mem_append]; exact Or.inr ho)) hne]
    rfl
end

theorem dedupDecompress_nonenv {pkg : Value} (h : isRegEnvB pkg = false) :
    dedupDecompress pkg = .ok pkg := by
  rw [isRegEnvB] at h
  rw [dedupDecompress, if_neg]
  intro hc
  rw [hc] at h
  simp at h

theorem dedup_roundtrip (minSize : Nat) (v : Value) (hw : wfV v = true)
    (hs : dedupSafeB v = true) : dedupDecompress (dedupCompress minSize v) = .ok v := by
  rw [dedupSafeB, Bool.and_eq_true, Bool.and_eq_true] at hs
  obtain ⟨⟨hs1, hs2⟩, hs3⟩ := hs
  have hs3b : isRegEnvB v = false := by
    cases hbb : isRegEnvB v
    · rfl
    · rw [hbb] at hs3
      simp at hs3
  rw [dedupCompress]
  by_cases hcomp : isComposite v = true
  case neg =>
    rw [if_pos hcomp]
    exact dedupDecompress_nonenv hs3b
  case pos =>
    rw [if_neg (not_not_intro hcomp)]
    by_cases hcand : dedupCandidates minSize v = []
    · rw [if_pos hcand]
      exact dedupDecompress_nonenv hs3b
    · rw [if_neg hcand]
      rw [dedupDecompress, if_pos (by
        simp [truthy, mField, jsGet, List.find?_cons])]
      have hr : mField (vObj [("$r", vObj (dedupRegistry minSize v)),
          ("d", dtransV (dedupCandidates minSize v) v)]) ("$r")
          = some (vObj (dedupRegistry minSize v)) := by
        simp [mField, jsGet, List.find?_cons]
      have hd : mField (vObj [("$r", vObj (dedupRegistry minSize v)),
          ("d", dtransV (dedupCandidates minSize v) v)]) ("d")
          = some (dtransV (dedupCandidates minSize v) v) := by
        simp [mField, jsGet, List.find?_cons]
      rw [hr, hd]
      rw [show regOf (some (vObj (dedupRegistry minSize v))) = dedupRegistry minSize v from rfl]
      rw [show (some (dtransV (dedupCandidates minSize v) v)).getD vNull
          = dtransV (dedupCandidates minSize v) v from rfl]
      refine dedup_rec_rt (dedupCandidates minSize v) (dedupRegistry minSize v) v hw ?_ ?_ ?_
      · intro s2 hs2mem id hcl
        rw [candLookup] at hcl
        obtain ⟨pr, hfind, hpr⟩ := Option.map_eq_some'.mp hcl
        have hprmem := List.mem_of_find?_eq_some hfind
        have hprpred := List.find?_some hfind
        have hpr1 : pr.1 = canonV s2 := eq_of_beq hprpred
        have hregmem : (pr.2, dedupRepr v pr.1) ∈ dedupRegistry minSize v := by
          rw [dedupRegistry]
          exact List.mem_map_of_mem _ hprmem
        have hnodup : ((dedupRegistry minSize v).map Prod.fst).Nodup := by
          rw [dedupRegistry, List.map_map]
          rw [show (Prod.fst ∘ fun p : String × String => (p.2, dedupRepr v p.1))
              = Prod.snd from rfl]
          exact candIds_nodup minSize v
        have hjs := jsGet_of_nodup hnodup hregmem
        have hc1 : pr.1 ∈ canonSeq v := (cands_mem_shape hprmem).2
        rw [canonSeq] at hc1
        obtain ⟨r, hrmem, hrc⟩ := List.mem_map.mp hc1
        have hfind2 : ∃ r2, (compositeSeq v).find? (fun s => canonV s == pr.1) = some r2 := by
          cases hf : (compositeSeq v).find? (fun s => canonV s == pr.1) with
          | some r2 => exact ⟨r2, rfl⟩
          | none =>
            have hnone := List.find?_eq_none.mp hf r hrmem
            rw [hrc] at hnone
            simp at hnone
        obtain ⟨r2, hf2⟩ := hfind2
        have hr2mem := List.mem_of_find?_eq_some hf2
        have hr2pred := List.find?_some hf2
        have hr2c : canonV r2 = pr.1 := eq_of_beq hr2pred
        have hr2sub : r2 ∈ subtreesV v := compositeSeq_mem_subtrees hr2mem
        have hinj2 := List.all_eq_true.mp (List.all_eq_true.mp hs2 r2 hr2sub) s2 hs2mem
        have heq : r2 = s2 := by
          rw [Bool.or_eq_true, Bool.not_eq_true'] at hinj2
          rcases hinj2 with h1 | h1
          · rw [hr2c, hpr1] at h1
            simp at h1
          · exact of_decide_eq_true h1
        rw [← hpr, hjs, dedupRepr, hf2, Option.getD_some, heq]
      · intro o ho
        exact List.all_eq_true.mp hs1 o ho
      · intro p hpmem
        exact cand_id_ne_empty hpmem

theorem canonSeq_count_eq (v : Value) (c : String) :
    (canonSeq v).count c = ((subtreesV v).map canonV).count c := by
  rw [canonSeq]
  exact List.Perm.count_eq (List.Perm.map canonV (compositeSeq_perm_subtrees v)) c

theorem dedupCandidates_nil_of_no_qualifying (minSize : Nat) (v : Value)
    (H : ∀ s ∈ subtreesV v, ¬(((subtreesV v).map canonV).count (canonV s) > 1 ∧
        utf8Len (canonV s) ≥ minSize)) :
    dedupCandidates minSize v = [] := by
  rw [dedupCandidates]
  have hf : (firstDedup (canonSeq v)).filter (fun c =>
      decide ((canonSeq v).count c > 1) && decide (utf8Len c ≥ minSize)) = [] := by
    rw [List.filter_eq_nil]
    intro c hc
    have hcs : c ∈ canonSeq v := firstDedup_subset hc
    rw [canonSeq] at hcs
    obtain ⟨s, hs, hcv⟩ := List.mem_map.mp hcs
    have hsub : s ∈ subtreesV v := (compositeSeq_perm_subtrees v).mem_iff.mp hs
    have hH := H s hsub
    rw [hcv] at hH
    simp only [Bool.and_eq_true, decide_eq_true_eq]
    intro hand
    exact hH ⟨by rw [← canonSeq_count_eq]; exact hand.1, hand.2⟩
  rw [hf]
  rfl

theorem dedupCompress_prim (minSize : Nat) (v : Value) (h : isComposite v = false) :
    dedupCompress minSize v = v := by
  rw [dedupCompress, if_pos]
  simp [h]

theorem dedupCompress_nocand (minSize : Nat) (v : Value)
    (h : dedupCandidates minSize v = []) : dedupCompress minSize v = v := by
  rw [dedupCompress]
  by_cases hc : isComposite v = true
  · rw [if_neg (not_not_intro hc), if_pos h]
  · rw [if_pos hc]

/-- Decode a base-26 bijective-numeration string (plus one): `a, b, ... z,
aa, ...` at index `n` decodes to `n + 1`. -/
def b26Val (l : List Char) : Nat :=
  l.foldl (fun acc c => acc * 26 + (c.toNat - 97) + 1) 0

theorem b26Val_append (l : List Char) (c : Char) :
    b26Val (l ++ [c]) = b26Val l * 26 + (c.toNat - 97) + 1 := by
  rw [b26Val, b26Val, List.foldl_append]
  rfl

theorem b26_char_decode (t : Nat) : (Char.ofNat (97 + t % 26)).toNat - 97 = t % 26 := by
  have hm : t % 26 < 26 := Nat.mod_lt t (by norm_num)
  set m := t % 26 with hmdef
  interval_cases m <;> decide

theorem genCharsGo_val : ∀ temp fuel, temp ≤ fuel →
    b26Val (genCharsGo fuel temp) = temp + 1 := by
  intro temp
  induction temp using Nat.strong_induction_on with
  | _ temp ih =>
    intro fuel hle
    cases fuel with
    | zero =>
      have h0 : temp = 0 := Nat.le_zero.mp hle
      subst h0
      decide
    | succ fuel =>
      rw [genCharsGo]
      by_cases hlt : temp < 26
      · rw [if_pos hlt]
        rw [show b26Val [Char.ofNat (97 + temp % 26)]
            = 0 * 26 + ((Char.ofNat (97 + temp % 26)).toNat - 97) + 1 from rfl]
        rw [b26_char_decode]
        rw [Nat.mod_eq_of_lt hlt]
        omega
      · rw [if_neg hlt]
        push_neg at hlt
        have hdiv1 : 1 ≤ temp / 26 := Nat.le_div_iff_mul_le (by norm_num) |>.mpr (by omega)
        have hlt2 : temp / 26 - 1 < temp := by
          have := Nat.div_le_self temp 26
          omega
        have hle2 : temp / 26 - 1 ≤ fuel := by
          have := Nat.div_le_self temp 26
          omega
        rw [b26Val_append, ih (temp / 26 - 1) hlt2 fuel hle2, b26_char_decode]
        have hdm := Nat.div_add_mod temp 26
        omega

theorem generateShortKey_inj : Function.Injective generateShortKey := by
  intro a b h
  rw [generateShortKey, generateShortKey] at h
  have hl : genCharsGo a a = genCharsGo b b := congrArg String.data h
  have ha := genCharsGo_val a a le_rfl
  have hb := genCharsGo_val b b le_rfl
  rw [hl, hb] at ha
  omega

theorem enumTokens_snd (ks : List String) :
    (enumTokens ks).map Prod.snd = (List.range ks.length).map generateShortKey := by
  rw [enumTokens, List.map_map]
  rw [show (Prod.snd ∘ fun p : Nat × String => (p.2, generateShortKey p.1))
      = (generateShortKey ∘ Prod.fst) from rfl]
  rw [← List.map_map, List.enum_map_fst]

theorem enumTokens_tokens_nodup (ks : List String) :
    ((enumTokens ks).map Prod.snd).Nodup := by
  rw [enumTokens_snd]
  exact List.Nodup.map generateShortKey_inj (List.nodup_range _)

theorem abbrevMap_token_inj (dict : List (String × String)) (v : Value) :
    ∀ p1 ∈ abbrevMapOf dict v, ∀ p2 ∈ abbrevMapOf dict v, p1.2 = p2.2 → p1.1 = p2.1 := by
  intro p1 h1 p2 h2 heq
  rw [abbrevMapOf] at h1 h2
  have he := List.inj_on_of_nodup_map
    (enumTokens_tokens_nodup (abbrevDynSeq dict v)) h1 h2 heq
  rw [he]

theorem utf8Len_append (a b : String) : utf8Len (a ++ b) = utf8Len a + utf8Len b := by
  rw [utf8Len, utf8Len, utf8Len, String.data_append, List.map_append, List.sum_append]

theorem flatMap_id_of_all : ∀ (l : List Char), (∀ c ∈ l, jsonEscapeChar c = [c]) →
    l.flatMap jsonEscapeChar = l := by
  intro l
  induction l with
  | nil => intro _; rfl
  | cons c cs ih =>
    intro h
    rw [List.flatMap_cons, h c (List.mem_cons_self c cs),
      ih (fun c2 hc2 => h c2 (List.mem_cons_of_mem c hc2))]
    rfl

theorem jsonQuote_utf8_escFree {s : String} (h : escapeFree s = true) :
    utf8Len (jsonQuote s) = utf8Len s + 2 := by
  rw [escapeFree, List.all_eq_true] at h
  rw [jsonQuote, flatMap_id_of_all s.data (fun c hc => eq_of_beq (h c hc))]
  rw [show utf8Len (String.mk ('"' :: s.data ++ ['"'])) =
    (((('"' : Char) :: s.data ++ ['"']).map Char.utf8Size).sum) from rfl]
  rw [List.map_append, List.sum_append, List.map_cons, List.sum_cons]
  rw [utf8Len]
  rw [show ((['"'].map Char.utf8Size).sum) = 1 from rfl]
  rw [show Char.utf8Size '"' = 1 from rfl]
  omega

theorem ascii_char_sizes {c : Char} (h : c.val < 0x80) :
    Char.utf8Size c = 1 ∧ (if c.val < 0x10000 then 1 else 2) = 1 := by
  have hn : c.val.toNat < 128 := h
  constructor
  · rw [Char.utf8Size]
    rw [if_pos]
    show c.val.toNat ≤ 127
    omega
  · rw [if_pos]
    show c.val.toNat < 65536
    omega

theorem jsLength_eq_utf8_of_ascii {k : String} (h : asciiStr k = true) :
    jsLength k = utf8Len k := by
  rw [asciiStr, List.all_eq_true] at h
  rw [jsLength, utf8Len]
  have : ∀ l : List Char, (∀ c ∈ l, c.val < 0x80) →
      ((l.map (fun c => if c.val < 0x10000 then 1 else 2)).sum : Nat)
        = (l.map Char.utf8Size).sum := by
    intro l
    induction l with
    | nil => intro _; rfl
    | cons c cs ih =>
      intro hl
      have hc := hl c (List.mem_cons_self c cs)
      obtain ⟨h1, h2⟩ := ascii_char_sizes hc
      rw [List.map_cons, List.map_cons, List.sum_cons, List.sum_cons, h1, h2,
        ih (fun c2 hc2 => hl c2 (List.mem_cons_of_mem c hc2))]
  exact this k.data (fun c hc => of_decide_eq_true (h c hc))

theorem digitsOf_size1 : ∀ n, ∀ c ∈ digitsOf n, Char.utf8Size c = 1 := by
  intro n
  induction n using Nat.strong_induction_on with
  | _ n ih =>
    intro c hc
    by_cases h : n < 10
    · rw [digitsOf, dif_pos h] at hc
      rw [List.mem_singleton] at hc
      subst hc
      interval_cases n <;> decide
    · rw [digitsOf, dif_neg h] at hc
      rw [List.mem_append] at hc
      rcases hc with hc | hc
      · exact ih (n / 10) (Nat.div_lt_self (by omega) (by omega)) c hc
      · rw [List.mem_singleton] at hc
        subst hc
        have hm : n % 10 < 10 := Nat.mod_lt n (by omega)
        set m := n % 10 with hmm
        interval_cases m <;> decide

theorem sum_sizes_eq_length {l : List Char} (h : ∀ c ∈ l, Char.utf8Size c = 1) :
    (l.map Char.utf8Size).sum = l.length := by
  induction l with
  | nil => rfl
  | cons c cs ih =>
    rw [List.map_cons, List.sum_cons, h c (List.mem_cons_self c cs),
      ih (fun c2 hc2 => h c2 (List.mem_cons_of_mem c hc2)), List.length_cons]
    omega

theorem natRepr_utf8 (n : Nat) : utf8Len (Nat.repr n) = (Nat.repr n).length := by
  rw [Nat.repr, Nat.toDigits, toDigitsCore_eq_digitsOf (n + 1) n [] (by omega)]
  rw [List.append_nil]
  rw [show utf8Len (digitsOf n).asString = ((digitsOf n).map Char.utf8Size).sum from rfl]
  rw [show (digitsOf n).asString.length = (digitsOf n).length from rfl]
  exact sum_sizes_eq_length (digitsOf_size1 n)

theorem intToString_utf8 (n : Int) : utf8Len (toString n) = (toString n).length := by
  cases n with
  | ofNat m =>
    rw [show toString (Int.ofNat m) = Nat.repr m from rfl]
    exact natRepr_utf8 m
  | negSucc m =>
    rw [show toString (Int.negSucc m) = "-" ++ Nat.repr (m + 1) from rfl]
    rw [utf8Len_append, natRepr_utf8]
    rw [show ("-" ++ Nat.repr (m + 1)).length = ("-".length) + (Nat.repr (m + 1)).length
      from by rw [String.length_append]]
    rfl

mutual
/-- Under escape-free strings and ASCII keys, the analyzer's byte
accumulator equals the exact UTF-8 size of the serialization. -/
theorem tb_eq : ∀ (v : Value), escFreeV v = true → keysAsciiV v = true →
    tbV v = utf8Len (jsonStringify v)
  | vNull, _, _ => by decide
  | vBool b, _, _ => by cases b <;> decide
  | vNum n, _, _ => by
    rw [tbV, jsonStringify, intToString_utf8]
  | vStr s, he, _ => by
    rw [tbV, jsonStringify, jsonQuote_utf8_escFree (by rw [escFreeV] at he; exact he)]
  | vArr xs, he, hk => by
    rw [escFreeV] at he
    rw [keysAsciiV] at hk
    rw [tbV, jsonStringify, utf8Len_append, utf8Len_append]
    rw [← tbL_eq xs he hk]
    rw [show utf8Len ("[" : String) = 1 from rfl, show utf8Len ("]" : String) = 1 from rfl]
    omega
  | vObj fs, he, hk => by
    rw [escFreeV] at he
    rw [keysAsciiV] at hk
    rw [tbV, jsonStringify, utf8Len_append, utf8Len_append]
    rw [← tbF_eq fs he hk]
    rw [show utf8Len ("\x7b" : String) = 1 from rfl, show utf8Len ("\x7d" : String) = 1 from rfl]
    omega

/-- Array-element byte accumulation matches serialization (commas included). -/
theorem tbL_eq : ∀ (xs : List Value), escFreeL xs = true → keysAsciiL xs = true →
    tbL xs + (xs.length - 1) = utf8Len (jsonStringifyL xs)
  | [], _, _ => by decide
  | [v], he, hk => by
    rw [escFreeL, Bool.and_eq_true] at he
    rw [keysAsciiL, Bool.and_eq_true] at hk
    rw [tbL, tbL, jsonStringifyL, tb_eq v he.1 hk.1]
    rfl
  | v :: v2 :: vs, he, hk => by
    rw [escFreeL, Bool.and_eq_true] at he
    rw [keysAsciiL, Bool.and_eq_true] at hk
    rw [tbL, jsonStringifyL, utf8Len_append, utf8Len_append]
    rw [← tbL_eq (v2 :: vs) he.2 hk.2, ← tb_eq v he.1 hk.1]
    rw [show utf8Len ("," : String) = 1 from rfl]
    rw [show (v :: v2 :: vs).length - 1 = ((v2 :: vs).length - 1) + 1 from by
      rw [List.length_cons, List.length_cons]
      omega]
    omega

/-- Object-member byte accumulation matches serialization. -/
theorem tbF_eq : ∀ (fs : List (String × Value)), escFreeF fs = true → keysAsciiF fs = true →
    tbF fs + (fs.length - 1) = utf8Len (jsonStringifyF fs)
  | [], _, _ => by decide
  | [(k, v)], he, hk => by
    rw [escFreeF, Bool.and_eq_true, Bool.and_eq_true] at he
    rw [keysAsciiF, Bool.and_eq_true, Bool.and_eq_true] at hk
    rw [tbF, tbF, jsonStringifyF, utf8Len_append, utf8Len_append]
    rw [← tb_eq v he.1.2 hk.1.2]
    rw [jsonQuote_utf8_escFree he.1.1, jsLength_eq_utf8_of_ascii hk.1.1]
    rw [show utf8Len (":" : String) = 1 from rfl]
    rfl
  | (k, v) :: p2 :: fs, he, hk => by
    rw [escFreeF, Bool.and_eq_true, Bool.and_eq_true] at he
    rw [keysAsciiF, Bool.and_eq_true, Bool.and_eq_true] at hk
    rw [tbF, jsonStringifyF, utf8Len_append, utf8Len_append, utf8Len_append, utf8Len_append]
    rw [← tbF_eq (p2 :: fs) he.2 hk.2, ← tb_eq v he.1.2 hk.1.2]
    rw [jsonQuote_utf8_escFree he.1.1, jsLength_eq_utf8_of_ascii hk.1.1]
    rw [show utf8Len (":" : String) = 1 from rfl, show utf8Len ("," : String) = 1 from rfl]
    rw [show ((k, v) :: p2 :: fs).length - 1 = ((p2 :: fs).length - 1) + 1 from by
      rw [List.length_cons, List.length_cons]
      omega]
    omega
end

theorem foldlM_ok_unit {α : Type} (f : Unit → α → Except TravErr Unit) :
    ∀ l : List α, (∀ c ∈ l, f () c = .ok ()) → l.foldlM f () = .ok () := by
  intro l
  induction l with
  | nil => intro _; rfl
  | cons c cs ih =>
    intro h
    rw [List.foldlM_cons, h c (List.mem_cons_self c cs)]
    exact ih (fun c2 hc2 => h c2 (List.mem_cons_of_mem c hc2))

theorem analyzeW_cyc (fuel : Nat) (hf : 1 ≤ fuel) :
    analyzeW heapCyc fuel [] (.hRef 0) = .error .circular := by
  cases fuel with
  | zero => omega
  | succ fuel =>
    rw [analyzeW]
    rw [if_neg (List.not_mem_nil 0)]
    have h1 : analyzeW heapCyc fuel [0] (.hNum 1) = .ok () := by cases fuel <;> rfl
    have h2 : analyzeW heapCyc fuel [0] (.hRef 0) = .error .circular := by
      cases fuel with
      | zero => rfl
      | succ f =>
        rw [analyzeW]
        rw [if_pos (List.mem_singleton.mpr rfl)]
    show (nodeChildren (nodeOf heapCyc 0)).foldlM
      (fun _ c => analyzeW heapCyc fuel (0 :: []) c) () = .error .circular
    rw [show nodeChildren (nodeOf heapCyc 0) = [.hNum 1, .hRef 0] from rfl]
    simp only [List.foldlM_cons, List.foldlM_nil, h1, h2]
    rfl

theorem abbrevW_cyc (fuel : Nat) (hf : 1 ≤ fuel) :
    abbrevW heapCyc fuel [] (.hRef 0) = .error .circular := by
  cases fuel with
  | zero => omega
  | succ fuel =>
    rw [abbrevW]
    rw [if_neg (List.not_mem_nil 0)]
    have h1 : abbrevW heapCyc fuel [0] (.hNum 1) = .ok [0] := by cases fuel <;> rfl
    have h2 : abbrevW heapCyc fuel [0] (.hRef 0) = .error .circular := by
      cases fuel with
      | zero => rfl
      | succ f =>
        rw [abbrevW]
        rw [if_pos (List.mem_singleton.mpr rfl)]
    show (nodeChildren (nodeOf heapCyc 0)).foldlM
      (fun vis2 c => abbrevW heapCyc fuel vis2 c) (0 :: []) = .error .circular
    rw [show nodeChildren (nodeOf heapCyc 0) = [.hNum 1, .hRef 0] from rfl]
    simp only [List.foldlM_cons, List.foldlM_nil, h1]
    show (abbrevW heapCyc fuel [0] (HVal.hRef 0) >>= fun i => pure i)
      = Except.error TravErr.circular
    rw [h2]
    rfl

theorem canonW_cyc (fuel : Nat) (hf : 1 ≤ fuel) :
    canonW heapCyc fuel [] (.hRef 0) = .error .circular := by
  cases fuel with
  | zero => omega
  | succ fuel =>
    rw [canonW]
    rw [if_neg (List.not_mem_nil 0)]
    have h1 : canonW heapCyc fuel [0] (.hNum 1) = .ok () := by cases fuel <;> rfl
    have h2 : canonW heapCyc fuel [0] (.hRef 0) = .error .circular := by
      cases fuel with
      | zero => rfl
      | succ f =>
        rw [canonW]
        rw [if_pos (List.mem_singleton.mpr rfl)]
    show (nodeChildren (nodeOf heapCyc 0)).foldlM
      (fun _ c => canonW heapCyc fuel (0 :: []) c) () = .error .circular
    rw [show nodeChildren (nodeOf heapCyc 0) = [.hNum 1, .hRef 0] from rfl]
    simp only [List.foldlM_cons, List.foldlM_nil, h1, h2]
    rfl

theorem schemaW_cyc : ∀ fuel, schemaW heapCyc fuel (.hRef 0) = .error .outOfFuel := by
  intro fuel
  induction fuel with
  | zero => rfl
  | succ fuel ih =>
    rw [schemaW]
    have h1 : schemaW heapCyc fuel (.hNum 1) = .ok () := by cases fuel <;> rfl
    show ([HVal.hNum 1, HVal.hRef 0].foldlM (fun _ c => schemaW heapCyc fuel c) ())
      = .error .outOfFuel
    simp only [List.foldlM_cons, List.foldlM_nil, h1]
    show (schemaW heapCyc fuel (.hRef 0) >>= fun i => pure i) = .error .outOfFuel
    rw [ih]
    rfl

theorem ultraW_cyc : ∀ fuel, ultraW heapCyc fuel (.hRef 0) = .error .outOfFuel := by
  intro fuel
  induction fuel with
  | zero => rfl
  | succ fuel ih =>
    rw [ultraW]
    have h1 : ultraW heapCyc fuel (.hNum 1) = .ok () := by cases fuel <;> rfl
    show ([HVal.hNum 1, HVal.hRef 0].foldlM (fun _ c => ultraW heapCyc fuel c) ())
      = .error .outOfFuel
    simp only [List.foldlM_cons, List.foldlM_nil, h1]
    show (ultraW heapCyc fuel (.hRef 0) >>= fun i => pure i) = .error .outOfFuel
    rw [ih]
    rfl

theorem dedupScanW_cyc (fuel : Nat) (hf : 1 ≤ fuel) :
    dedupScanW heapCyc fuel [.hRef 0] = .error .circular := by
  cases fuel with
  | zero => omega
  | succ fuel =>
    rw [dedupScanW]
    rw [canonW_cyc (fuel + 1) (by omega)]
    rfl

theorem dedupCompressW_cyc (fuel : Nat) (hf : 1 ≤ fuel) :
    dedupCompressW heapCyc fuel (.hRef 0) = .error .circular := by
  rw [dedupCompressW]
  rw [dedupScanW_cyc fuel hf]
  rfl

theorem analyzeW_acyclic (h : Heap) (rank : Nat → Nat) (hr : RankOk h rank) :
    ∀ n v fuel anc,
      (∀ a, v = HVal.hRef a → rank a < n ∧ rank a < fuel ∧ ∀ b ∈ anc, rank a < rank b) →
      analyzeW h fuel anc v = .ok () := by
  intro n
  induction n with
  | zero =>
    intro v fuel anc hv
    cases v with
    | hRef a =>
      have := (hv a rfl).1
      omega
    | hNull => cases fuel <;> rfl
    | hBool b => cases fuel <;> rfl
    | hNum m => cases fuel <;> rfl
    | hStr s => cases fuel <;> rfl
  | succ n ih =>
    intro v fuel anc hv
    cases v with
    | hRef a =>
      obtain ⟨hn, hfuel, hanc⟩ := hv a rfl
      have hnotmem : a ∉ anc := fun hmem => absurd (hanc a hmem) (lt_irrefl _)
      cases fuel with
      | zero => omega
      | succ fuel =>
        rw [analyzeW, if_neg hnotmem]
        refine foldlM_ok_unit _ _ ?_
        intro c hc
        apply ih
        intro b hceq
        have hrb := hr a c hc b hceq
        refine ⟨by omega, by omega, ?_⟩
        intro b' hb'
        rcases List.mem_cons.mp hb' with h' | h'
        · rw [h']
          omega
        · exact lt_trans hrb (hanc b' h')
    | hNull => cases fuel <;> rfl
    | hBool b => cases fuel <;> rfl
    | hNum m => cases fuel <;> rfl
    | hStr s => cases fuel <;> rfl

theorem canonW_acyclic (h : Heap) (rank : Nat → Nat) (hr : RankOk h rank) :
    ∀ n v fuel anc,
      (∀ a, v = HVal.hRef a → rank a < n ∧ rank a < fuel ∧ ∀ b ∈ anc, rank a < rank b) →
      canonW h fuel anc v = .ok () := by
  intro n
  induction n with
  | zero =>
    intro v fuel anc hv
    cases v with
    | hRef a =>
      have := (hv a rfl).1
      omega
    | hNull => cases fuel <;> rfl
    | hBool b => cases fuel <;> rfl
    | hNum m => cases fuel <;> rfl
    | hStr s => cases fuel <;> rfl
  | succ n ih =>
    intro v fuel anc hv
    cases v with
    | hRef a =>
      obtain ⟨hn, hfuel, hanc⟩ := hv a rfl
      have hnotmem : a ∉ anc := fun hmem => absurd (hanc a hmem) (lt_irrefl _)
      cases fuel with
      | zero => omega
      | succ fuel =>
        rw [canonW, if_neg hnotmem]
        refine foldlM_ok_unit _ _ ?_
        intro c hc
        apply ih
        intro b hceq
        have hrb := hr a c hc b hceq
        refine ⟨by omega, by omega, ?_⟩
        intro b' hb'
        rcases List.mem_cons.mp hb' with h' | h'
        · rw [h']
          omega
        · exact lt_trans hrb (hanc b' h')
    | hNull => cases fuel <;> rfl
    | hBool b => cases fuel <;> rfl
    | hNum m => cases fuel <;> rfl
    | hStr s => cases fuel <;> rfl

theorem rankShared : RankOk heapShared (fun a => 1 - a) := by
  intro a c hc b hceq
  match a, hc with
  | 0, hc =>
    rw [show nodeChildren (nodeOf heapShared 0) = [.hRef 1, .hRef 1] from rfl] at hc
    have hce : c = HVal.hRef 1 := by
      rcases List.mem_cons.mp hc with h | h
      · exact h
      · rcases List.mem_cons.mp h with h' | h'
        · exact h'
        · exact absurd h' (List.not_mem_nil c)
    rw [hce] at hceq
    injection hceq with hb
    rw [← hb]
    decide
  | 1, hc =>
    rw [show nodeChildren (nodeOf heapShared 1) = [.hNum 1] from rfl] at hc
    rw [List.mem_singleton] at hc
    rw [hc] at hceq
    exact HVal.noConfusion hceq
  | a + 2, hc =>
    rw [show nodeChildren (nodeOf heapShared (a + 2)) = [] from rfl] at hc
    exact absurd hc (List.not_mem_nil c)

theorem analyzeW_shared (fuel : Nat) (hf : 2 ≤ fuel) :
    analyzeW heapShared fuel [] (.hRef 0) = .ok () := by
  refine analyzeW_acyclic heapShared (fun a => 1 - a) rankShared 2 (.hRef 0) fuel [] ?_
  intro a ha
  injection ha with h
  rw [← h]
  refine ⟨by decide, by show 1 - 0 < fuel; omega, ?_⟩
  intro b hb
  exact absurd hb (List.not_mem_nil b)

theorem canonW_shared (fuel : Nat) (hf : 2 ≤ fuel) :
    canonW heapShared fuel [] (.hRef 0) = .ok () := by
  refine canonW_acyclic heapShared (fun a => 1 - a) rankShared 2 (.hRef 0) fuel [] ?_
  intro a ha
  injection ha with h
  rw [← h]
  refine ⟨by decide, by show 1 - 0 < fuel; omega, ?_⟩
  intro b hb
  exact absurd hb (List.not_mem_nil b)

theorem schemaW_shared (fuel : Nat) (hf : 2 ≤ fuel) :
    schemaW heapShared fuel (.hRef 0) = .ok () := by
  match fuel, hf with
  | f + 2, _ =>
    rw [schemaW]
    have h1 : schemaW heapShared (f + 1) (.hRef 1) = .ok () := by
      rw [schemaW]
      show ([HVal.hNum 1].foldlM (fun _ c => schemaW heapShared f c) ()) = .ok ()
      have h2 : schemaW heapShared f (.hNum 1) = .ok () := by cases f <;> rfl
      simp only [List.foldlM_cons, List.foldlM_nil, h2]
      rfl
    show ([HVal.hRef 1, HVal.hRef 1].foldlM (fun _ c => schemaW heapShared (f + 1) c) ())
      = .ok ()
    simp only [List.foldlM_cons, List.foldlM_nil, h1]
    rfl

theorem ultraW_shared (fuel : Nat) (hf : 2 ≤ fuel) :
    ultraW heapShared fuel (.hRef 0) = .ok () := by
  match fuel, hf with
  | f + 2, _ =>
    rw [ultraW]
    have h1 : ultraW heapShared (f + 1) (.hRef 1) = .ok () := by
      rw [ultraW]
      show ([HVal.hNum 1].foldlM (fun _ c => ultraW heapShared f c) ()) = .ok ()
      have h2 : ultraW heapShared f (.hNum 1) = .ok () := by cases f <;> rfl
      simp only [List.foldlM_cons, List.foldlM_nil, h2]
      rfl
    show ([HVal.hRef 1, HVal.hRef 1].foldlM (fun _ c => ultraW heapShared (f + 1) c) ())
      = .ok ()
    simp only [List.foldlM_cons, List.foldlM_nil, h1]
    rfl

theorem abbrevW_shared (fuel : Nat) (hf : 2 ≤ fuel) :
    abbrevW heapShared fuel [] (.hRef 0) = .error .circular := by
  match fuel, hf with
  | f + 2, _ =>
    rw [abbrevW, if_neg (List.not_mem_nil 0)]
    have h1 : abbrevW heapShared (f + 1) [0] (.hRef 1) = .ok [1, 0] := by
      rw [abbrevW, if_neg (by decide)]
      show ([HVal.hNum 1].foldlM (fun vis2 c => abbrevW heapShared f vis2 c) [1, 0])
        = .ok [1, 0]
      have h2 : abbrevW heapShared f [1, 0] (.hNum 1) = .ok [1, 0] := by cases f <;> rfl
      simp only [List.foldlM_cons, List.foldlM_nil, h2]
      rfl
    have h3 : abbrevW heapShared (f + 1) [1, 0] (.hRef 1) = .error .circular := by
      cases f with
      | zero => rfl
      | succ g => rw [abbrevW, if_pos (by decide)]
    show ([HVal.hRef 1, HVal.hRef 1].foldlM
      (fun vis2 c => abbrevW heapShared (f + 1) vis2 c) (0 :: [])) = .error .circular
    simp only [List.foldlM_cons, List.foldlM_nil, h1]
    show (abbrevW heapShared (f + 1) [1, 0] (HVal.hRef 1) >>= fun i => pure i)
      = .error .circular
    rw [h3]
    rfl

theorem dedupCompressW_shared : dedupCompressW heapShared 8 (.hRef 0) = .ok () := by rfl

theorem optimize_cost_le (opts : OptimizerOptions) (tokFn : String → Nat)
    (dump : Value → String) (refineFn : Value → Value) (v : Value)
    (hval : opts.validateTokenSavings = true) :
    costV tokFn (optimize opts tokFn dump refineFn v) ≤ costV tokFn v := by
  rw [optimize]
  by_cases hth : analyzeTotalBytes v < opts.thresholdBytes
  · rw [if_pos hth]
  · rw [if_neg hth]
    show costV tokFn
      (if opts.validateTokenSavings
          && decide (costV tokFn (optimizePipeline opts tokFn dump refineFn v) > costV tokFn v)
       then v else optimizePipeline opts tokFn dump refineFn v) ≤ costV tokFn v
    rw [hval, Bool.true_and]
    by_cases hc : costV tokFn (optimizePipeline opts tokFn dump refineFn v) > costV tokFn v
    · rw [if_pos (decide_eq_true hc)]
    · rw [if_neg (fun hd => absurd (of_decide_eq_true hd) hc)]
      exact Nat.le_of_not_lt hc

theorem optimize_passthrough_on_regression (opts : OptimizerOptions) (tokFn : String → Nat)
    (dump : Value → String) (refineFn : Value → Value) (v : Value)
    (hval : opts.validateTokenSavings = true)
    (hreg : costV tokFn (optimizePipeline opts tokFn dump refineFn v) > costV tokFn v) :
    optimize opts tokFn dump refineFn v = v := by
  rw [optimize]
  by_cases hth : analyzeTotalBytes v < opts.thresholdBytes
  · rw [if_pos hth]
  · rw [if_neg hth]
    show (if opts.validateTokenSavings
        && decide (costV tokFn (optimizePipeline opts tokFn dump refineFn v) > costV tokFn v)
      then v else optimizePipeline opts tokFn dump refineFn v) = v
    rw [hval, Bool.true_and, if_pos (decide_eq_true hreg)]

theorem optimize_final_dispatch (opts : OptimizerOptions) (tokFn : String → Nat)
    (dump : Value → String) (refineFn : Value → Value) (v : Value)
    (hval : opts.validateTokenSavings = true)
    (hth : ¬ analyzeTotalBytes v < opts.thresholdBytes) :
    optimize opts tokFn dump refineFn v =
      (if costV tokFn (optimizePipeline opts tokFn dump refineFn v) > costV tokFn v
       then v else optimizePipeline opts tokFn dump refineFn v) := by
  rw [optimize, if_neg hth]
  show (if opts.validateTokenSavings
      && decide (costV tokFn (optimizePipeline opts tokFn dump refineFn v) > costV tokFn v)
    then v else optimizePipeline opts tokFn dump refineFn v) = _
  rw [hval, Bool.true_and]
  by_cases hc : costV tokFn (optimizePipeline opts tokFn dump refineFn v) > costV tokFn v
  · rw [if_pos (decide_eq_true hc), if_pos hc]
  · rw [if_neg (fun hd => absurd (of_decide_eq_true hd) hc), if_neg hc]

theorem subset_keys_iff {as bs : List String} (ha : as.Nodup) (hb : bs.Nodup)
    (hlen : as.length = bs.length) (hsub : ∀ k ∈ bs, k ∈ as) :
    ∀ k, k ∈ as ↔ k ∈ bs := by
  have hfs : bs.toFinset ⊆ as.toFinset := by
    intro k hk
    rw [List.mem_toFinset] at hk ⊢
    exact hsub k hk
  have hcard : as.toFinset.card ≤ bs.toFinset.card := by
    rw [List.toFinset_card_of_nodup ha, List.toFinset_card_of_nodup hb]
    omega
  have heq : bs.toFinset = as.toFinset := Finset.eq_of_subset_of_card_le hfs hcard
  intro k
  rw [← List.mem_toFinset, ← heq, List.mem_toFinset]

theorem allMatch_iff (xs : List Value) (hw : wfV (vArr xs) = true) :
    allMatch xs = true ↔
      (xs ≠ [] ∧ ∀ y ∈ xs, ∃ gs, y = vObj gs ∧
        (gs.map Prod.fst).length = (headKeys xs).length ∧
        (∀ k, k ∈ gs.map Prod.fst ↔ k ∈ headKeys xs)) := by
  rw [wfV] at hw
  cases xs with
  | nil =>
    rw [show allMatch [] = false from rfl]
    simp
  | cons x rest =>
    cases x with
    | vObj fs0 =>
      have hwx : wfV (vObj fs0) = true := wfL_mem hw (List.mem_cons_self _ rest)
      have hnod0 : (fs0.map Prod.fst).Nodup := by
        rw [wfV, Bool.and_eq_true, decide_eq_true_eq] at hwx
        exact hwx.1
      have hhk : headKeys (vObj fs0 :: rest) = fs0.map Prod.fst := rfl
      constructor
      · intro h
        refine ⟨by simp, ?_⟩
        intro y hy
        rcases List.mem_cons.mp hy with hy0 | hyr
        · exact ⟨fs0, hy0, by rw [hhk], by rw [hhk]; intro k; rfl⟩
        · rw [show allMatch (vObj fs0 :: rest)
            = rest.all (fun it =>
                match it with
                | vObj fsi => (fsi.length == (fs0.map Prod.fst).length)
                    && (fs0.map Prod.fst).all (fun k => (fsi.map Prod.fst).contains k)
                | _ => false) from rfl, List.all_eq_true] at h
          have hp := h y hyr
          cases y with
          | vObj gs =>
            rw [Bool.and_eq_true] at hp
            have hlen : gs.length = fs0.length := by
              have hb := eq_of_beq hp.1
              rw [List.length_map] at hb
              exact hb
            have hsub : ∀ k ∈ fs0.map Prod.fst, k ∈ gs.map Prod.fst := by
              intro k hk
              exact List.mem_of_elem_eq_true (List.all_eq_true.mp hp.2 k hk)
            have hwy : wfV (vObj gs) = true := wfL_mem hw hy
            have hnodg : (gs.map Prod.fst).Nodup := by
              rw [wfV, Bool.and_eq_true, decide_eq_true_eq] at hwy
              exact hwy.1
            refine ⟨gs, rfl, ?_, ?_⟩
            · rw [hhk, List.length_map, List.length_map]
              exact hlen
            · rw [hhk]
              exact subset_keys_iff hnodg hnod0
                (by rw [List.length_map, List.length_map]; exact hlen) hsub
          | vNull => exact absurd hp (by simp)
          | vBool b => exact absurd hp (by simp)
          | vNum n => exact absurd hp (by simp)
          | vStr s => exact absurd hp (by simp)
          | vArr ys => exact absurd hp (by simp)
      · intro ⟨_, hall⟩
        rw [show allMatch (vObj fs0 :: rest)
          = rest.all (fun it =>
              match it with
              | vObj fsi => (fsi.length == (fs0.map Prod.fst).length)
                  && (fs0.map Prod.fst).all (fun k => (fsi.map Prod.fst).contains k)
              | _ => false) from rfl, List.all_eq_true]
        intro y hy
        obtain ⟨gs, hgs, hlen, hmem⟩ := hall y (List.mem_cons_of_mem _ hy)
        rw [hgs]
        rw [Bool.and_eq_true]
        constructor
        · rw [hhk, List.length_map, List.length_map] at hlen
          rw [List.length_map]
          exact beq_iff_eq.mpr hlen
        · rw [List.all_eq_true]
          intro k hk
          exact List.elem_eq_true_of_mem ((hmem k).mpr (by rw [hhk]; exact hk))
    | vNull =>
      constructor
      · intro h
        exact absurd h (by rw [show allMatch (vNull :: rest) = false from rfl]; simp)
      · intro ⟨_, hall⟩
        obtain ⟨gs, hgs, _⟩ := hall vNull (List.mem_cons_self _ rest)
        exact Value.noConfusion hgs
    | vBool b =>
      constructor
      · intro h
        exact absurd h (by rw [show allMatch (vBool b :: rest) = false from rfl]; simp)
      · intro ⟨_, hall⟩
        obtain ⟨gs, hgs, _⟩ := hall (vBool b) (List.mem_cons_self _ rest)
        exact Value.noConfusion hgs
    | vNum n =>
      constructor
      · intro h
        exact absurd h (by rw [show allMatch (vNum n :: rest) = false from rfl]; simp)
      · intro ⟨_, hall⟩
        obtain ⟨gs, hgs, _⟩ := hall (vNum n) (List.mem_cons_self _ rest)
        exact Value.noConfusion hgs
    | vStr s =>
      constructor
      · intro h
        exact absurd h (by rw [show allMatch (vStr s :: rest) = false from rfl]; simp)
      · intro ⟨_, hall⟩
        obtain ⟨gs, hgs, _⟩ := hall (vStr s) (List.mem_cons_self _ rest)
        exact Value.noConfusion hgs
    | vArr ys =>
      constructor
      · intro h
        exact absurd h (by rw [show allMatch (vArr ys :: rest) = false from rfl]; simp)
      · intro ⟨_, hall⟩
        obtain ⟨gs, hgs, _⟩ := hall (vArr ys) (List.mem_cons_self _ rest)
        exact Value.noConfusion hgs

theorem schemaCompress_record_iff (xs : List Value) :
    (∃ s d, schemaCompress (vArr xs) = vObj [("$s", s), ("$d", d)]) ↔ allMatch xs = true := by
  rw [schemaCompress]
  by_cases h : allMatch xs = true
  · rw [if_pos h]
    exact ⟨fun _ => h, fun _ => ⟨_, _, rfl⟩⟩
  · rw [if_neg h]
    constructor
    · intro ⟨s, d, hsd⟩
      exact Value.noConfusion hsd
    · intro hh
      exact absurd hh h

/-!
## Claim theorems
-/

/-- C1: each strategy's decode inverts its encode — for Key Abbreviation and
safe-mode Ultra Compact under collision-freedom of the encode's key mapping
on the input, for Schema Separation under marker-safety, and for Structural
Deduplication under marker/canonical-collision safety (the claim as stated
over all acyclic values fails: see the counterexample). -/
theorem C1_roundtrip_safe_modes :
    (∀ (dict : List (String × String)) (v : Value), wfV v = true →
      abbrevInvertibleB dict v = true →
      dictDecompress dict (abbrevCompress dict v) = v) ∧
    (∀ v : Value, wfV v = true → schemaSafeB v = true →
      schemaDecompress (schemaCompress v) = v) ∧
    (∀ (minSize : Nat) (v : Value), wfV v = true → dedupSafeB v = true →
      dedupDecompress (dedupCompress minSize v) = .ok v) ∧
    (∀ (dict : List (String × String)) (v : Value), wfV v = true →
      ultraInvertibleB dict v = true →
      dictDecompress dict (ultraCompress false v) = v) :=
  ⟨abbrev_roundtrip, schema_roundtrip, dedup_roundtrip, ultra_roundtrip⟩

/-- C1 counterexample: the well-formed acyclic value
`\x7brole: 1, a: 2\x7d` is not recovered by the Key Abbreviation
round-trip — the static token `a` for `role` collides with the untouched
key `a`, so decoding yields `\x7brole: 2\x7d`. -/
theorem C1_roundtrip_counterexample :
    wfV (vObj [("role", vNum 1), ("a", vNum 2)]) = true ∧
    dictDecompress DICT (abbrevCompress DICT (vObj [("role", vNum 1), ("a", vNum 2)]))
      ≠ vObj [("role", vNum 1), ("a", vNum 2)] := by
  constructor
  · decide
  · decide

/-- C1 witness: the round-trips at `\x7brole: "user"\x7d` and dedup at
minimum size 64. -/
theorem C1_roundtrip_witness :
    dictDecompress DICT (abbrevCompress DICT (vObj [("role", vStr "user")]))
      = vObj [("role", vStr "user")] ∧
    schemaDecompress (schemaCompress (vObj [("role", vStr "user")]))
      = vObj [("role", vStr "user")] ∧
    dedupDecompress (dedupCompress 64 (vObj [("role", vStr "user")]))
      = .ok (vObj [("role", vStr "user")]) ∧
    dictDecompress DICT (ultraCompress false (vObj [("role", vStr "user")]))
      = vObj [("role", vStr "user")] :=
  ⟨C1_roundtrip_safe_modes.1 DICT _ (by decide) (by decide),
   C1_roundtrip_safe_modes.2.1 _ (by decide) (by decide),
   C1_roundtrip_safe_modes.2.2.1 64 _ (by decide) (by decide),
   C1_roundtrip_safe_modes.2.2.2 DICT _ (by decide) (by decide)⟩

/-- C2: on the cyclic value `a = \x7bx: 1\x7d; a.self = a`, the estimator's
analyze, the Key Abbreviation encode walk and dedup canonicalization (and
with it the whole dedup encode) raise the circular-reference error, but the
Schema Separation and Ultra Compact encode walks have no cycle detection
and exhaust every depth budget — they loop forever instead of raising. -/
theorem C2_cycle_behavior :
    (∀ fuel, 1 ≤ fuel → analyzeW heapCyc fuel [] (.hRef 0) = .error .circular) ∧
    (∀ fuel, 1 ≤ fuel → abbrevW heapCyc fuel [] (.hRef 0) = .error .circular) ∧
    (∀ fuel, 1 ≤ fuel → canonW heapCyc fuel [] (.hRef 0) = .error .circular) ∧
    (∀ fuel, 1 ≤ fuel → dedupCompressW heapCyc fuel (.hRef 0) = .error .circular) ∧
    (∀ fuel, schemaW heapCyc fuel (.hRef 0) = .error .outOfFuel) ∧
    (∀ fuel, ultraW heapCyc fuel (.hRef 0) = .error .outOfFuel) :=
  ⟨analyzeW_cyc, abbrevW_cyc, canonW_cyc, dedupCompressW_cyc, schemaW_cyc, ultraW_cyc⟩

/-- C2 witness: the six walks at depth budget 5. -/
theorem C2_cycle_witness :
    analyzeW heapCyc 5 [] (.hRef 0) = .error .circular ∧
    abbrevW heapCyc 5 [] (.hRef 0) = .error .circular ∧
    canonW heapCyc 5 [] (.hRef 0) = .error .circular ∧
    dedupCompressW heapCyc 5 (.hRef 0) = .error .circular ∧
    schemaW heapCyc 5 (.hRef 0) = .error .outOfFuel ∧
    ultraW heapCyc 5 (.hRef 0) = .error .outOfFuel :=
  ⟨C2_cycle_behavior.1 5 (by decide), C2_cycle_behavior.2.1 5 (by decide),
   C2_cycle_behavior.2.2.1 5 (by decide), C2_cycle_behavior.2.2.2.1 5 (by decide),
   C2_cycle_behavior.2.2.2.2.1 5, C2_cycle_behavior.2.2.2.2.2 5⟩

/-- C3: with cost validation enabled, the optimizer's result never costs
more than the input under the same cost function, and whenever the
pipeline's final value would cost strictly more the optimizer returns the
input itself. -/
theorem C3_validated_cost_never_worse :
    ∀ (opts : OptimizerOptions) (tokFn : String → Nat) (dump : Value → String)
      (refineFn : Value → Value) (v : Value),
      opts.validateTokenSavings = true →
      costV tokFn (optimize opts tokFn dump refineFn v) ≤ costV tokFn v ∧
      (costV tokFn (optimizePipeline opts tokFn dump refineFn v) > costV tokFn v →
        optimize opts tokFn dump refineFn v = v) :=
  fun opts tokFn dump refineFn v hval =>
    ⟨optimize_cost_le opts tokFn dump refineFn v hval,
     optimize_passthrough_on_regression opts tokFn dump refineFn v hval⟩

/-- C3 witness: a concrete run — byte-length cost, default options, a
small object — does not regress. -/
theorem C3_validated_witness :
    costV String.length
      (optimize { } String.length (fun _ => "") (fun w => w) (vObj [("role", vNum 1)]))
      ≤ costV String.length (vObj [("role", vNum 1)]) :=
  (C3_validated_cost_never_worse { } String.length (fun _ => "") (fun w => w)
    (vObj [("role", vNum 1)]) (by decide)).1

/-- C4: with cost validation enabled and the input at or above the byte
threshold, the optimizer keeps the pipeline's final value unless its cost
is STRICTLY GREATER than the original's — a final value of equal cost is
returned, not the original (the claim's "not strictly lower, including
equal, returns the original" fails: see the counterexample). -/
theorem C4_final_validation_strict :
    ∀ (opts : OptimizerOptions) (tokFn : String → Nat) (dump : Value → String)
      (refineFn : Value → Value) (v : Value),
      opts.validateTokenSavings = true →
      ¬ analyzeTotalBytes v < opts.thresholdBytes →
      optimize opts tokFn dump refineFn v =
        (if costV tokFn (optimizePipeline opts tokFn dump refineFn v) > costV tokFn v
         then v else optimizePipeline opts tokFn dump refineFn v) :=
  optimize_final_dispatch

/-- C4 counterexample: with a constant-zero cost function (final cost equal
to the original's, not strictly lower), the optimizer returns the
schema-compressed value, not the original input. -/
theorem C4_equal_cost_counterexample :
    costV (fun _ => 0)
        (optimize ⟨false, 0, false, true, false, none, false, false, 512⟩
          (fun _ => 0) (fun _ => "") (fun w => w)
          (vArr [vObj [("aa", vNum 1), ("bb", vNum 2)],
                 vObj [("aa", vNum 1), ("bb", vNum 2)],
                 vObj [("aa", vNum 1), ("bb", vNum 2)]]))
      = costV (fun _ => 0)
        (vArr [vObj [("aa", vNum 1), ("bb", vNum 2)],
               vObj [("aa", vNum 1), ("bb", vNum 2)],
               vObj [("aa", vNum 1), ("bb", vNum 2)]]) ∧
    optimize ⟨false, 0, false, true, false, none, false, false, 512⟩
        (fun _ => 0) (fun _ => "") (fun w => w)
        (vArr [vObj [("aa", vNum 1), ("bb", vNum 2)],
               vObj [("aa", vNum 1), ("bb", vNum 2)],
               vObj [("aa", vNum 1), ("bb", vNum 2)]])
      ≠ vArr [vObj [("aa", vNum 1), ("bb", vNum 2)],
              vObj [("aa", vNum 1), ("bb", vNum 2)],
              vObj [("aa", vNum 1), ("bb", vNum 2)]] := by
  constructor
  · rfl
  · decide

/-- C4 witness: the dispatch equation at a concrete validated run. -/
theorem C4_final_validation_witness :
    optimize ⟨false, 0, false, true, false, none, false, false, 512⟩
        String.length (fun _ => "") (fun w => w) (vObj [("role", vNum 1)]) =
      (if costV String.length
          (optimizePipeline ⟨false, 0, false, true, false, none, false, false, 512⟩
            String.length (fun _ => "") (fun w => w) (vObj [("role", vNum 1)]))
          > costV String.length (vObj [("role", vNum 1)])
       then vObj [("role", vNum 1)]
       else optimizePipeline ⟨false, 0, false, true, false, none, false, false, 512⟩
         String.length (fun _ => "") (fun w => w) (vObj [("role", vNum 1)])) :=
  C4_final_validation_strict ⟨false, 0, false, true, false, none, false, false, 512⟩
    String.length (fun _ => "") (fun w => w) (vObj [("role", vNum 1)])
    (by decide) (by decide)

/-- C5: the dynamically generated key map of one Key Abbreviation encode is
bijective — its tokens are exactly the base-26 counter sequence
`generateShortKey 0, 1, ...` in order, pairwise distinct, and no two
entries share a token — but the COMBINED static-plus-dynamic assignment of
the claim is not injective in general (see the counterexample: a generated
token can collide with a static token used in the same call). -/
theorem C5_dynamic_map_bijective :
    ∀ (dict : List (String × String)) (v : Value),
      ((abbrevMapOf dict v).map Prod.snd
        = (List.range (abbrevDynSeq dict v).length).map generateShortKey) ∧
      ((abbrevMapOf dict v).map Prod.snd).Nodup ∧
      (∀ p1 ∈ abbrevMapOf dict v, ∀ p2 ∈ abbrevMapOf dict v,
        p1.2 = p2.2 → p1.1 = p2.1) :=
  fun dict v =>
    ⟨enumTokens_snd (abbrevDynSeq dict v),
     enumTokens_tokens_nodup (abbrevDynSeq dict v),
     abbrevMap_token_inj dict v⟩

/-- C5 counterexample: encoding `\x7brole: 1, zzzzz: 2\x7d` with the
default static dictionary assigns the token `a` both statically to `role`
and dynamically to `zzzzz` — two distinct original keys receive the same
token, so the combined per-call dictionary is not bijective. -/
theorem C5_token_collision_counterexample :
    ("role", "a") ∈ usedAssignments DICT (vObj [("role", vNum 1), ("zzzzz", vNum 2)]) ∧
    ("zzzzz", "a") ∈ usedAssignments DICT (vObj [("role", vNum 1), ("zzzzz", vNum 2)]) ∧
    "role" ≠ "zzzzz" := by
  refine ⟨?_, ?_, by decide⟩
  · decide
  · decide

/-- C5 witness: the dynamic map of the encode of
`\x7bzzzzz: 1, yyyyy: 2\x7d` carries the first two base-26 tokens,
distinct, with distinct keys. -/
theorem C5_dynamic_map_witness :
    ((abbrevMapOf DICT (vObj [("zzzzz", vNum 1), ("yyyyy", vNum 2)])).map Prod.snd
      = (List.range
          (abbrevDynSeq DICT (vObj [("zzzzz", vNum 1), ("yyyyy", vNum 2)])).length).map
        generateShortKey) ∧
    ((abbrevMapOf DICT (vObj [("zzzzz", vNum 1), ("yyyyy", vNum 2)])).map Prod.snd).Nodup ∧
    ("zzzzz", "a").1 = ("zzzzz", "a").1 :=
  ⟨(C5_dynamic_map_bijective DICT (vObj [("zzzzz", vNum 1), ("yyyyy", vNum 2)])).1,
   (C5_dynamic_map_bijective DICT (vObj [("zzzzz", vNum 1), ("yyyyy", vNum 2)])).2.1,
   (C5_dynamic_map_bijective DICT (vObj [("zzzzz", vNum 1), ("yyyyy", vNum 2)])).2.2
     ("zzzzz", "a") (by decide) ("zzzzz", "a") (by decide) rfl⟩

/-- C6: the traversals tracking the current path only (the estimator's
analyze and dedup canonicalization) raise the circular error only on true
cycles — on every ranked-acyclic heap, and in particular on the shared
value `b = \x7bx: 1\x7d; \x7bp: b, q: b\x7d`, they complete; Schema and
Ultra walks also complete there; but the Key Abbreviation encode's visited
set is global (never removed on leave), so it raises the circular error on
this merely shared, acyclic value (the claim as stated fails: see the
counterexample). -/
theorem C6_shared_acyclic :
    (∀ (h : Heap) (rank : Nat → Nat), RankOk h rank → ∀ a fuel, rank a < fuel →
      analyzeW h fuel [] (.hRef a) = .ok ()) ∧
    (∀ (h : Heap) (rank : Nat → Nat), RankOk h rank → ∀ a fuel, rank a < fuel →
      canonW h fuel [] (.hRef a) = .ok ()) ∧
    (∀ fuel, 2 ≤ fuel → analyzeW heapShared fuel [] (.hRef 0) = .ok ()) ∧
    (∀ fuel, 2 ≤ fuel → canonW heapShared fuel [] (.hRef 0) = .ok ()) ∧
    (∀ fuel, 2 ≤ fuel → schemaW heapShared fuel (.hRef 0) = .ok ()) ∧
    (∀ fuel, 2 ≤ fuel → ultraW heapShared fuel (.hRef 0) = .ok ()) ∧
    dedupCompressW heapShared 8 (.hRef 0) = .ok () ∧
    (∀ fuel, 2 ≤ fuel → abbrevW heapShared fuel [] (.hRef 0) = .error .circular) := by
  refine ⟨?_, ?_, analyzeW_shared, canonW_shared, schemaW_shared, ultraW_shared,
    dedupCompressW_shared, abbrevW_shared⟩
  · intro h rank hr a fuel hfa
    refine analyzeW_acyclic h rank hr (rank a + 1) (.hRef a) fuel [] ?_
    intro a2 ha2
    injection ha2 with he
    rw [← he]
    exact ⟨by omega, hfa, fun b hb => absurd hb (List.not_mem_nil b)⟩
  · intro h rank hr a fuel hfa
    refine canonW_acyclic h rank hr (rank a + 1) (.hRef a) fuel [] ?_
    intro a2 ha2
    injection ha2 with he
    rw [← he]
    exact ⟨by omega, hfa, fun b hb => absurd hb (List.not_mem_nil b)⟩

/-- C6 counterexample: the heap of `b = \x7bx: 1\x7d; \x7bp: b, q: b\x7d` is
acyclic (a rank function witnesses it), yet the Key Abbreviation encode
walk raises the circular error on it. -/
theorem C6_shared_counterexample :
    RankOk heapShared (fun a => 1 - a) ∧
    abbrevW heapShared 2 [] (.hRef 0) = .error .circular :=
  ⟨rankShared, abbrevW_shared 2 (by decide)⟩

/-- C6 witness: the completions and the abbreviation failure at depth
budget 3 on the shared heap, the general statements instantiated with the
explicit rank function. -/
theorem C6_shared_witness :
    analyzeW heapShared 2 [] (.hRef 0) = .ok () ∧
    canonW heapShared 2 [] (.hRef 0) = .ok () ∧
    schemaW heapShared 3 (.hRef 0) = .ok () ∧
    ultraW heapShared 3 (.hRef 0) = .ok () ∧
    abbrevW heapShared 3 [] (.hRef 0) = .error .circular :=
  ⟨C6_shared_acyclic.1 heapShared (fun a => 1 - a) rankShared 0 2 (by decide),
   C6_shared_acyclic.2.1 heapShared (fun a => 1 - a) rankShared 0 2 (by decide),
   C6_shared_acyclic.2.2.2.2.1 3 (by decide),
   C6_shared_acyclic.2.2.2.2.2.1 3 (by decide),
   C6_shared_acyclic.2.2.2.2.2.2.2 3 (by decide)⟩

/-- C7: the two-object example encodes to the exact `\x7b$s, $d\x7d` record
with fields `[id, name]` and rows `[[1, A], [2, B]]`; an array in which one
object has an extra key is left unchanged; and in general a well-formed
array becomes a Schema Record exactly when it is nonempty and every element
is an object whose key set has the first element's cardinality and
membership — checked over every element. -/
theorem C7_schema_record_exact :
    schemaCompress (vArr [vObj [("id", vNum 1), ("name", vStr "A")],
        vObj [("id", vNum 2), ("name", vStr "B")]])
      = vObj [("$s", vArr [vStr "id", vStr "name"]),
              ("$d", vArr [vArr [vNum 1, vStr "A"], vArr [vNum 2, vStr "B"]])] ∧
    schemaCompress (vArr [vObj [("id", vNum 1)], vObj [("id", vNum 2), ("x", vNum 3)]])
      = vArr [vObj [("id", vNum 1)], vObj [("id", vNum 2), ("x", vNum 3)]] ∧
    (∀ xs : List Value, wfV (vArr xs) = true →
      ((∃ s d, schemaCompress (vArr xs) = vObj [("$s", s), ("$d", d)]) ↔
        (xs ≠ [] ∧ ∀ y ∈ xs, ∃ gs, y = vObj gs ∧
          (gs.map Prod.fst).length = (headKeys xs).length ∧
          (∀ k, k ∈ gs.map Prod.fst ↔ k ∈ headKeys xs)))) := by
  refine ⟨by decide, by decide, ?_⟩
  intro xs hw
  exact (schemaCompress_record_iff xs).trans (allMatch_iff xs hw)

/-- C7 witness: the general criterion at the concrete uniform two-element
array. -/
theorem C7_schema_record_witness :
    ∃ s d, schemaCompress (vArr [vObj [("a", vNum 1)], vObj [("a", vNum 2)]])
      = vObj [("$s", s), ("$d", d)] := by
  refine (C7_schema_record_exact.2.2 [vObj [("a", vNum 1)], vObj [("a", vNum 2)]]
    (by decide)).mpr ⟨by decide, ?_⟩
  intro y hy
  rcases List.mem_cons.mp hy with h0 | h1
  · exact ⟨[("a", vNum 1)], h0, by decide, fun k => Iff.rfl⟩
  · rcases List.mem_cons.mp h1 with h2 | h3
    · exact ⟨[("a", vNum 2)], h2, by decide, fun k => Iff.rfl⟩
    · exact absurd h3 (List.not_mem_nil y)

/-- C8: for every root whose encoded body is falsy (null, false, 0 or the
empty string — on such primitives the Key Abbreviation body is the root
itself), `restore` does not dispatch the `\x7bm, d\x7d` envelope to the
dictionary decode (its `d` truthiness test fails) and returns the envelope
object itself, even though the strategy's own decompress (which tests only
the PRESENCE of `d`) recovers the original; so `restore` after encode
differs from the original for these roots. -/
theorem C8_restore_falsy_body :
    ∀ (dict : List (String × String)) (yload : String → Value) (v : Value),
      truthy v = false →
      restore dict yload (abbrevCompress dict v) = .ok (abbrevCompress dict v) ∧
      dictDecompress dict (abbrevCompress dict v) = v ∧
      abbrevCompress dict v ≠ v := by
  intro dict yload v hf
  cases v with
  | vNull => exact ⟨rfl, rfl, fun he => Value.noConfusion he⟩
  | vBool b =>
    have hb : b = false := by
      rw [truthy] at hf
      exact hf
    rw [hb]
    exact ⟨rfl, rfl, fun he => Value.noConfusion he⟩
  | vNum n =>
    have hn : n = 0 := by
      rw [truthy] at hf
      exact not_not.mp (of_decide_eq_false hf)
    rw [hn]
    exact ⟨rfl, rfl, fun he => Value.noConfusion he⟩
  | vStr s =>
    have hs : s = "" := by
      rw [truthy] at hf
      exact not_not.mp (of_decide_eq_false hf)
    rw [hs]
    exact ⟨rfl, rfl, fun he => Value.noConfusion he⟩
  | vArr xs =>
    rw [truthy] at hf
    exact Bool.noConfusion hf
  | vObj fs =>
    rw [truthy] at hf
    exact Bool.noConfusion hf

/-- C8 witness: the falsy-body behaviour at root `0` with the default
static dictionary. -/
theorem C8_restore_falsy_witness :
    restore DICT (fun _ => vNull) (abbrevCompress DICT (vNum 0))
      = .ok (abbrevCompress DICT (vNum 0)) ∧
    dictDecompress DICT (abbrevCompress DICT (vNum 0)) = vNum 0 :=
  ⟨(C8_restore_falsy_body DICT (fun _ => vNull) (vNum 0) (by decide)).1,
   (C8_restore_falsy_body DICT (fun _ => vNull) (vNum 0) (by decide)).2.1⟩

/-- C9: dedup encode returns its input itself whenever no composite subtree
has a canonical form that both repeats and meets the minimum size (in
particular for primitives), and decode returns unchanged every value that
does not match the decoder's dispatch shape — a truthy `$r` member plus a
present `d` member (NOT every non-registry value: a malformed object with a
truthy non-registry `$r` is dispatched and rewritten, see the
counterexample); hence the not-applicable round-trip is the identity on
non-dispatch values. -/
theorem C9_dedup_not_applicable :
    (∀ (minSize : Nat) (v : Value),
      (∀ s ∈ subtreesV v, ¬(((subtreesV v).map canonV).count (canonV s) > 1 ∧
          utf8Len (canonV s) ≥ minSize)) →
      dedupCompress minSize v = v) ∧
    (∀ (minSize : Nat) (v : Value), isComposite v = false →
      dedupCompress minSize v = v) ∧
    (∀ w : Value, isRegEnvB w = false → dedupDecompress w = .ok w) ∧
    (∀ (minSize : Nat) (v : Value),
      (∀ s ∈ subtreesV v, ¬(((subtreesV v).map canonV).count (canonV s) > 1 ∧
          utf8Len (canonV s) ≥ minSize)) →
      isRegEnvB v = false →
      dedupDecompress (dedupCompress minSize v) = .ok v) := by
  refine ⟨?_, dedupCompress_prim, fun w => dedupDecompress_nonenv, ?_⟩
  · intro minSize v hq
    exact dedupCompress_nocand minSize v (dedupCandidates_nil_of_no_qualifying minSize v hq)
  · intro minSize v hq henv
    rw [dedupCompress_nocand minSize v (dedupCandidates_nil_of_no_qualifying minSize v hq)]
    exact dedupDecompress_nonenv henv

/-- C9 counterexample: `\x7b$r: true, d: 0\x7d` is not a registry envelope
— its `$r` is not a registry object, and no encode produces it — yet
decode does not return it unchanged: the truthy test dispatches it and
rewrites it to `0`. -/
theorem C9_nonenvelope_counterexample :
    (∀ fs : List (String × Value),
      mField (vObj [("$r", vBool true), ("d", vNum 0)]) ("$r") ≠ some (vObj fs)) ∧
    dedupDecompress (vObj [("$r", vBool true), ("d", vNum 0)]) = .ok (vNum 0) ∧
    (vNum 0 : Value) ≠ vObj [("$r", vBool true), ("d", vNum 0)] := by
  refine ⟨?_, by rfl, by decide⟩
  intro fs he
  rw [show mField (vObj [("$r", vBool true), ("d", vNum 0)]) ("$r")
    = some (vBool true) from rfl] at he
  rw [Option.some.injEq] at he
  exact Value.noConfusion he

/-- C9 witness: the not-applicable round-trip at the primitive `7` and at
a small repeat-free object, minimum size 64. -/
theorem C9_dedup_witness :
    dedupCompress 64 (vNum 7) = vNum 7 ∧
    dedupCompress 64 (vObj [("a", vNum 1)]) = vObj [("a", vNum 1)] ∧
    dedupDecompress (vStr "x") = .ok (vStr "x") ∧
    dedupDecompress (dedupCompress 64 (vObj [("a", vNum 1)]))
      = .ok (vObj [("a", vNum 1)]) :=
  ⟨C9_dedup_not_applicable.2.1 64 (vNum 7) (by decide),
   C9_dedup_not_applicable.1 64 (vObj [("a", vNum 1)]) (by decide),
   C9_dedup_not_applicable.2.2.1 (vStr "x") (by decide),
   C9_dedup_not_applicable.2.2.2 64 (vObj [("a", vNum 1)]) (by decide) (by decide)⟩

/-- C10: for values built from plain objects, arrays, numbers, booleans,
null and escape-free strings WITH ALL OBJECT KEYS ASCII, the analyzer's
totalBytes equals exactly the UTF-8 byte length of the JSON serialization
(keys are counted in UTF-16 units, so the claim as stated fails on a
non-ASCII key: see the counterexample). -/
theorem C10_analyzer_bytes_exact :
    ∀ v : Value, escFreeV v = true → keysAsciiV v = true →
      analyzeTotalBytes v = jsonBytes v := by
  intro v he hk
  rw [analyzeTotalBytes, jsonBytes]
  by_cases hc : isComposite v = true
  · rw [if_pos hc]
    exact tb_eq v he hk
  · rw [if_neg hc]

/-- C10 counterexample: `\x7bé: 1\x7d` is escape-free, yet the analyzer
counts 7 bytes while the serialization is 8 UTF-8 bytes — the key is
measured in UTF-16 units, not UTF-8 bytes. -/
theorem C10_nonascii_key_counterexample :
    escFreeV (vObj [("é", vNum 1)]) = true ∧
    analyzeTotalBytes (vObj [("é", vNum 1)]) = 7 ∧
    jsonBytes (vObj [("é", vNum 1)]) = 8 := by
  refine ⟨by decide, by decide, by decide⟩

/-- C10 witness: exact byte accounting at an ASCII two-member object. -/
theorem C10_analyzer_bytes_witness :
    analyzeTotalBytes (vObj [("role", vStr "user"), ("n", vNum (-3))])
      = jsonBytes (vObj [("role", vStr "user"), ("n", vNum (-3))]) :=
  C10_analyzer_bytes_exact (vObj [("role", vStr "user"), ("n", vNum (-3))])
    (by decide) (by decide)
